import Mathlib

/-
Verification of the tupleapp/vector repository core compilers against their
natural-language specification.

Embedded components:
* the VRL expression compiler (src/lib/vrl/compiler/src/compiler.rs),
* the config compiler driver (src/src/config/compiler.rs),
* the schema requirement validator (src/lib/vector-core/src/schema/requirement.rs).

Every definition is translated from the Rust source where that source is in the
repository snapshot; collaborators that the snapshot only declares (the parser
AST, the expression node types, the `validation`/`graph` modules, the external
`glob` crate, the schema `Definition`) are modelled from the specification and
carry a doc comment saying so.
-/

namespace Vrl

/-- Severity of a diagnostic. Modelled from the spec: the diagnostic crate is not
under src/; the spec lists the three severities Bug, Error and Warning. -/
inductive Severity where
  | bug
  | error
  | warning
deriving DecidableEq

/-- Modelled from the spec: the concrete diagnostic payloads live outside src/.
The compiler in src/ pushes (a) the pending fallible-expression error
(`expression::Error::Fallible`), (b) errors produced by expression
constructors — of which undefined-variable (from `Variable::new`) is the one the
claims exercise — and (c) converted parser errors. Source spans are omitted:
no claim inspects them. -/
inductive Diagnostic where
  | fallibleError
  | undefinedVariable (ident : String)
  | parseError (msg : String)
deriving DecidableEq

/-- Severity classification of the modelled diagnostics: all three are
compile-time errors in the source (none of the code under src/ emits a
warning-severity diagnostic). -/
def Diagnostic.severity : Diagnostic → Severity
  | .fallibleError => .error
  | .undefinedVariable _ => .error
  | .parseError _ => .error

/-- Binary opcodes, reduced to the distinction the compiler cares about:
`err` is the error-coalescing operator (`??`, `ast::Opcode::Err`), `arith`
stands for every other opcode. Modelled from the spec (the parser AST is not
under src/). -/
inductive Opcode where
  | err
  | arith
deriving DecidableEq

/-- The parser AST (`ast::Expr`), reduced to the expression kinds the claims
exercise. Modelled from the spec: the parser crate is not under src/. Function
calls are modelled with their compile-time-relevant flags (whether the
registered function is fallible, and the `abort_on_error` `!` call syntax);
argument and closure compilation is not claim-relevant and is omitted.
Assignment targets are internal variables. The optional abort message is
inlined into two constructors (`abort` without and `abortWithMessage` with a
message) so the type is not nested through `Option`. -/
inductive AstExpr where
  | literal
  | var (ident : String)
  | functionCall (fallibleFn : Bool) (abortOnError : Bool)
  | op (lhs : AstExpr) (opcode : Opcode) (rhs : AstExpr)
  | assignmentSingle (target : String) (e : AstExpr)
  | assignmentInfallible (okTarget : String) (errTarget : String) (e : AstExpr)
  | abort
  | abortWithMessage (message : AstExpr)
deriving DecidableEq

/-- Root expression (`ast::RootExpr`): a real expression or a recoverable
parser-error node. Modelled from the spec. -/
inductive RootExpr where
  | expr (e : AstExpr)
  | error (msg : String)
deriving DecidableEq

/-- Compiled expression node (`crate::expression::Expr`), mirroring the reduced
AST, plus the `Noop` node the compiler emits for empty programs. -/
inductive Expr where
  | literal
  | var (ident : String)
  | functionCall (fallibleFn : Bool) (abortOnError : Bool)
  | op (lhs : Expr) (opcode : Opcode) (rhs : Expr)
  | assignmentSingle (target : String) (e : Expr)
  | assignmentInfallible (okTarget : String) (errTarget : String) (e : Expr)
  | abort
  | abortWithMessage (message : Expr)
  | noop
deriving DecidableEq

/-- The two bits of a compiled expression's type definition the compiler in
src/ consults: `is_fallible` and `is_never`. Modelled from the spec (the
`TypeDef` type is not under src/). -/
structure TypeDef where
  fallible : Bool
  never : Bool
deriving DecidableEq

/-- Modelled from the spec: the per-expression-kind `type_def` implementations
are not under src/. Literals and variable reads are infallible; a function call
is fallible iff the called function is fallible and the `abort_on_error` syntax
is not used (the `!` suffix resolves the error by aborting, so the call
expression itself is no longer fallible); the error-coalescing operator takes
the fallibility of its right-hand side; an other op is fallible if either side
is; an infallible assignment is infallible; `abort` diverges (type "never"). -/
def Expr.type_def : Expr → TypeDef
  | .literal => ⟨false, false⟩
  | .var _ => ⟨false, false⟩
  | .functionCall fallibleFn abortOnError => ⟨fallibleFn && !abortOnError, false⟩
  | .op lhs opcode rhs =>
    match opcode with
    | .err => ⟨(rhs.type_def).fallible, (lhs.type_def).never && (rhs.type_def).never⟩
    | .arith => ⟨(lhs.type_def).fallible || (rhs.type_def).fallible,
                 (lhs.type_def).never || (rhs.type_def).never⟩
  | .assignmentSingle _ e => ⟨(e.type_def).fallible, (e.type_def).never⟩
  | .assignmentInfallible _ _ _ => ⟨false, false⟩
  | .abort => ⟨false, true⟩
  | .abortWithMessage me => ⟨(me.type_def).fallible, true⟩
  | .noop => ⟨false, false⟩

/-- Local lexical scope (`state::LocalEnv`), reduced to the set of bound
variable identifiers. Modelled from the spec: the state module is not under
src/, and the claims only need to know whether an identifier is bound. -/
structure LocalEnv where
  bindings : List String
deriving DecidableEq

/-- Bind a variable identifier in the local scope. -/
def LocalEnv.insert_variable (env : LocalEnv) (ident : String) : LocalEnv :=
  if ident ∈ env.bindings then env else ⟨env.bindings ++ [ident]⟩

/-- External (event target) environment. Modelled from the spec: only its
tracked target details are touched by the code under src/ that the claims
cover (`external.target()` is snapshotted by the terminal-expression logic and
restored with `update_target`); the details themselves are opaque here. -/
structure ExternalEnv where
  target : Nat
deriving DecidableEq

/-- Replace the tracked target details (`ExternalEnv::update_target`). -/
def ExternalEnv.update_target (env : ExternalEnv) (details : Nat) : ExternalEnv :=
  { env with target := details }

/-- The mutable state of `Compiler` from compiler.rs: accumulated diagnostics,
the program-wide `fallible`/`abortable` flags, the local scope, the
skip-list for query targets whose defining assignment failed to compile, and
the pending fallible-expression error. The skip-list is reduced to internal
variable identifiers (the only query targets in the reduced AST). -/
structure CompilerState where
  diagnostics : List Diagnostic
  fallible : Bool
  abortable : Bool
  localEnv : LocalEnv
  skip_missing_query_target : List String
  fallible_expression_error : Option Diagnostic
deriving DecidableEq

/-- Compiler state produced by `Compiler::new`. -/
def CompilerState.new : CompilerState :=
  ⟨[], false, false, ⟨[]⟩, [], none⟩

/-- Push a diagnostic onto the accumulator. -/
def CompilerState.push_diagnostic (st : CompilerState) (d : Diagnostic) : CompilerState :=
  { st with diagnostics := st.diagnostics ++ [d] }

/-- Embedding of `Compiler::compile_variable`: a skipped query target compiles
to nothing without a diagnostic; otherwise `Variable::new` (modelled from the
spec: not under src/) succeeds when the identifier is bound in the local scope
and pushes an undefined-variable diagnostic when it is not. -/
def compile_variable (ident : String) (st : CompilerState) : Option Expr × CompilerState :=
  if st.skip_missing_query_target.contains ident then
    (none, st)
  else if st.localEnv.bindings.contains ident then
    (some (Expr.var ident), st)
  else
    (none, st.push_diagnostic (Diagnostic.undefinedVariable ident))

/-- Sequencing of fallible compile steps: the translation of Rust's `?`
operator on `Option` results, with the compiler state threaded through. -/
def bindStep {α β : Type} (p : Option α × CompilerState)
    (f : α → CompilerState → Option β × CompilerState) : Option β × CompilerState :=
  match p with
  | (none, st) => (none, st)
  | (some a, st) => f a st

/-- The tail of `Compiler::compile_expr` (lines 130-141 of compiler.rs): when
the compiled expression's type-def is fallible and no fallible expression is
tracked yet in the current chain, record the pending fallible-expression
error. -/
def track_fallibility (p : Option Expr × CompilerState) : Option Expr × CompilerState :=
  match p with
  | (none, st) => (none, st)
  | (some expr, st) =>
    (some expr,
      if (expr.type_def).fallible && st.fallible_expression_error.isNone then
        { st with fallible_expression_error := some Diagnostic.fallibleError }
      else st)

/-- Embedding of `Compiler::compile_expr` and the per-kind compile functions it
dispatches to.

Per-kind bodies mirror the source: `compile_function_call` sets the
program-wide `fallible` flag when `abort_on_error` is used (the function-call
builder itself, which is not under src/, is modelled as succeeding);
`compile_op` compiles the lhs, clears the pending fallible-expression error
when the opcode is the error-coalescing one, then compiles the rhs (`Op::new`
modelled as succeeding); `compile_assignment` compiles the rhs and on failure
records the assignment targets in the skip-list, while the infallible variant
additionally clears the pending fallible-expression error (`Assignment::new`
modelled as succeeding and binding its targets); `compile_abort` sets the
program-wide `abortable` flag before compiling its optional message.

After the dispatched compilation, the wrapper marks the pending
fallible-expression error if the compiled expression's type-def is fallible and
no error is tracked yet, exactly as lines 130-141 of compiler.rs. -/
def compile_expr (node : AstExpr) (st : CompilerState) : Option Expr × CompilerState :=
  track_fallibility
    (match node with
    | .literal => (some Expr.literal, st)
    | .var ident => compile_variable ident st
    | .functionCall fallibleFn abortOnError =>
      let st := if abortOnError then { st with fallible := true } else st
      (some (Expr.functionCall fallibleFn abortOnError), st)
    | .op lhs opcode rhs =>
      bindStep (compile_expr lhs st) (fun l st =>
        let st :=
          if opcode = Opcode.err then { st with fallible_expression_error := none } else st
        bindStep (compile_expr rhs st) (fun r st => (some (Expr.op l opcode r), st)))
    | .assignmentSingle target e =>
      match compile_expr e st with
      | (none, st) =>
        (none, { st with skip_missing_query_target := st.skip_missing_query_target ++ [target] })
      | (some ce, st) =>
        (some (Expr.assignmentSingle target ce),
          { st with localEnv := st.localEnv.insert_variable target })
    | .assignmentInfallible okTarget errTarget e =>
      match compile_expr e st with
      | (none, st) =>
        (none, { st with
          skip_missing_query_target :=
            st.skip_missing_query_target ++ [okTarget, errTarget] })
      | (some ce, st) =>
        let st := { st with fallible_expression_error := none }
        (some (Expr.assignmentInfallible okTarget errTarget ce),
          { st with localEnv := (st.localEnv.insert_variable okTarget).insert_variable errTarget })
    | .abort =>
      let st := { st with abortable := true }
      (some Expr.abort, st)
    | .abortWithMessage m =>
      let st := { st with abortable := true }
      match compile_expr m st with
      | (none, st) => (none, st)
      | (some cm, st) => (some (Expr.abortWithMessage cm), st))

/-- The loop body of `Compiler::compile_root_exprs` (lines 230-253 of
compiler.rs): per root expression the pending fallible-expression error is
reset, the expression compiled, a pending error (if any) pushed as a
diagnostic, and — only while no terminating expression has been seen — the
compiled node emitted; an emitted node whose type-def is "never" records the
terminated state (local scope and external target details). Parser-error nodes
are pushed as diagnostics (`handle_parser_error`). -/
def compile_root_exprs_loop (nodes : List RootExpr) (st : CompilerState)
    (external : ExternalEnv) (node_exprs : List Expr)
    (terminated_state : Option (LocalEnv × Nat)) :
    List Expr × CompilerState × ExternalEnv × Option (LocalEnv × Nat) :=
  match nodes with
  | [] => (node_exprs, st, external, terminated_state)
  | root :: rest =>
    match root with
    | .error err =>
      compile_root_exprs_loop rest (st.push_diagnostic (Diagnostic.parseError err))
        external node_exprs terminated_state
    | .expr node_expr =>
      let st := { st with fallible_expression_error := none }
      match compile_expr node_expr st with
      | (none, st) => compile_root_exprs_loop rest st external node_exprs terminated_state
      | (some expr, st) =>
        let st :=
          match st.fallible_expression_error with
          | some error =>
            { st with diagnostics := st.diagnostics ++ [error],
                      fallible_expression_error := none }
          | none => st
        if terminated_state.isNone then
          let type_def := expr.type_def
          let node_exprs := node_exprs ++ [expr]
          if type_def.never then
            compile_root_exprs_loop rest st external node_exprs
              (some (st.localEnv, external.target))
          else
            compile_root_exprs_loop rest st external node_exprs none
        else
          compile_root_exprs_loop rest st external node_exprs terminated_state

/-- Embedding of `Compiler::compile_root_exprs`: run the loop, commit the
terminated state (restoring the local scope and external target captured at
the terminal expression), and emit a single `Noop` when no expression was
emitted. -/
def compile_root_exprs (nodes : List RootExpr) (st : CompilerState)
    (external : ExternalEnv) : List Expr × CompilerState × ExternalEnv :=
  let r := compile_root_exprs_loop nodes st external [] none
  let node_exprs := r.1
  let st := r.2.1
  let external := r.2.2.1
  let stExt :=
    match r.2.2.2 with
    | some le => ({ st with localEnv := le.1 }, external.update_target le.2)
    | none => (st, external)
  let node_exprs := if node_exprs.isEmpty then [Expr.noop] else node_exprs
  (node_exprs, stExt.1, stExt.2)

/-- Aggregate program metadata (`ProgramInfo`). The external query/assignment
path lists are omitted: the reduced AST contains no external queries or
assignments, so they are always empty. -/
structure ProgramInfo where
  fallible : Bool
  abortable : Bool
deriving DecidableEq

/-- The compiled artifact (`Program`): ordered compiled expressions plus
metadata. -/
structure Program where
  expressions : List Expr
  info : ProgramInfo
deriving DecidableEq

/-- Embedding of `Compiler::compile` (lines 63-89 of compiler.rs): compile the
root expressions, partition the accumulated diagnostics into errors (severity
Bug or Error) and warnings, fail with the errors when any exist, and otherwise
return the program together with the warnings. -/
def compile (ast : List RootExpr) (external : ExternalEnv) :
    Except (List Diagnostic) (Program × List Diagnostic) :=
  let r := compile_root_exprs ast CompilerState.new external
  let expressions := r.1
  let st := r.2.1
  let part := st.diagnostics.partition
    (fun d => d.severity == Severity.bug || d.severity == Severity.error)
  let errors := part.1
  let warnings := part.2
  if errors.isEmpty = false then
    Except.error errors
  else
    Except.ok ({ expressions := expressions, info := ⟨st.fallible, st.abortable⟩ }, warnings)

/-- The diagnostics accumulated while compiling a whole program from the fresh
compiler state (used to state the error/warning classification claim). -/
def compiled_diagnostics (ast : List RootExpr) (external : ExternalEnv) : List Diagnostic :=
  (compile_root_exprs ast CompilerState.new external).2.1.diagnostics

/-- A diagnostic is critical when its severity is Bug or Error. -/
def Diagnostic.is_critical (d : Diagnostic) : Bool :=
  d.severity == Severity.bug || d.severity == Severity.error

end Vrl

namespace VectorConfig

/-- Wiring mode of a macro expansion (`config::ExpandType`). -/
inductive ExpandType where
  | parallel
  | serial
deriving DecidableEq

/-- Modelled from the spec: the `TransformConfig::expand` trait method (the
trait lives outside src/). A transform either does not expand, expands into an
ordered list of named children (which, per the claims, are plain transforms),
or fails to expand with an error message. -/
inductive ExpandSpec where
  | noExpand
  | expandsTo (children : List String) (ty : ExpandType)
  | expandFails (msg : String)
deriving DecidableEq

/-- Modelled from the spec: the behaviour of a boxed transform config that the
config compiler consults — its expansion and its named output ports. -/
structure TransformInner where
  expandSpec : ExpandSpec
  namedOutputs : List String
deriving DecidableEq

/-- A transform entry in the builder (`TransformOuter`): raw string inputs plus
the inner config. -/
structure TransformOuter where
  inputs : List String
  inner : TransformInner
deriving DecidableEq

/-- A sink entry in the builder: raw string inputs. -/
structure SinkOuter where
  inputs : List String
deriving DecidableEq

/-- The configuration builder (`ConfigBuilder`), reduced to the fields the
config compiler in src/ reads: component keys and inputs. Source configs carry
no claim-relevant data beyond their key. Maps are insertion-ordered
association lists, mirroring `IndexMap`. -/
structure ConfigBuilder where
  sources : List String
  transforms : List (String × TransformOuter)
  sinks : List (String × SinkOuter)
deriving DecidableEq

/-- Association-list lookup (first binding wins), mirroring map lookup. -/
def alookup {α : Type} (m : List (String × α)) (k : String) : Option α :=
  (m.find? (fun p => p.1 == k)).map (fun p => p.2)

/-- Insertion-ordered map insert (`IndexMap::insert`): replace the value in
place when the key is present, otherwise append. -/
def imInsert {α : Type} (m : List (String × α)) (k : String) (v : α) :
    List (String × α) :=
  if m.any (fun p => p.1 == k) then
    m.map (fun p => if p.1 == k then (k, v) else p)
  else
    m ++ [(k, v)]

/-- Modelled from the spec: `validation::check_names` (validation.rs is not
under src/). Component identifiers must not contain the reserved `.` delimiter
used to namespace macro-expanded children; one error per offending name. -/
def check_names (keys : List String) : List String :=
  (keys.filter (fun k => k.data.contains '.')).map
    (fun k => s!"Component name {k} should not contain a dot")

/-- The inner for-loop of `expand_macros` (lines 120-138 of
config/compiler.rs): each child becomes a component named `parent.child`
holding the current `inputs`, and `inputs` is then rewired — back to the
parent's original inputs under Parallel, or to just the freshly created child
under Serial. Children are plain transforms (no further expansion, no named
outputs). -/
def child_entries (k : String) (parentInputs : List String) (inputs : List String)
    (children : List String) (expand_type : ExpandType) :
    List (String × TransformOuter) :=
  match children with
  | [] => []
  | name :: rest =>
    let full_name := k ++ "." ++ name
    let next_inputs :=
      match expand_type with
      | ExpandType.parallel => parentInputs
      | ExpandType.serial => [full_name]
    (full_name, ⟨inputs, ⟨ExpandSpec.noExpand, []⟩⟩) ::
      child_entries k parentInputs next_inputs rest expand_type

/-- Accumulated state of the `expand_macros` work loop: the transforms that do
not expand (in processing order), the recorded expansion map, and the
collected errors. -/
structure MacroState where
  expanded_transforms : List (String × TransformOuter)
  expansions : List (String × List String)
  errors : List String
deriving DecidableEq

/-- Weight of a work-stack entry: 1, plus the number of children it will push
when it expands. Used as the termination measure of the work loop. -/
def entryWeight (p : String × TransformOuter) : Nat :=
  match p.2.inner.expandSpec with
  | ExpandSpec.expandsTo cs _ => 1 + cs.length
  | _ => 1

/-- Total weight of the work stack. -/
def stackWeight (l : List (String × TransformOuter)) : Nat :=
  (l.map entryWeight).sum

/-- The `while let Some((k, t)) = config.transforms.pop()` loop of
`expand_macros`. `IndexMap::pop` removes the most recently inserted entry, so
the stack here is the transform map in reverse insertion order, with its head
the next entry to pop; inserting the children at the end of the map prepends
them, in reverse, to the stack. An expansion failure is collected as one error
and only skips that transform. -/
def expand_macros_loop : List (String × TransformOuter) → MacroState → MacroState
  | [], st => st
  | (k, t) :: rest, st =>
    match h : t.inner.expandSpec with
    | ExpandSpec.expandFails msg =>
      expand_macros_loop rest
        { st with errors := st.errors ++ [s!"failed to expand transform {k}: {msg}"] }
    | ExpandSpec.noExpand =>
      expand_macros_loop rest
        { st with expanded_transforms := imInsert st.expanded_transforms k t }
    | ExpandSpec.expandsTo children expand_type =>
      let entries := child_entries k t.inputs t.inputs children expand_type
      expand_macros_loop (entries.reverse ++ rest)
        { st with
          expansions :=
            imInsert st.expansions k (children.map (fun name => k ++ "." ++ name)) }
termination_by l _ => stackWeight l
decreasing_by
  · simp [stackWeight, entryWeight, h]
  · simp [stackWeight, entryWeight, h]
  · have hw : ∀ cs cur, stackWeight (child_entries k t.inputs cur cs expand_type) = cs.length := by
      intro cs
      induction cs with
      | nil => intro cur; simp [child_entries, stackWeight]
      | cons c cs ih =>
        intro cur
        cases expand_type with
        | parallel =>
          simp only [child_entries, stackWeight, List.map_cons, List.sum_cons, entryWeight,
            List.length_cons]
          have h1 := ih t.inputs
          simp only [stackWeight] at h1
          omega
        | serial =>
          simp only [child_entries, stackWeight, List.map_cons, List.sum_cons, entryWeight,
            List.length_cons]
          have h1 := ih [k ++ "." ++ c]
          simp only [stackWeight] at h1
          omega
    simp only [stackWeight, List.map_append, List.sum_append, List.map_reverse,
      List.sum_reverse, List.map_cons, List.sum_cons, entryWeight, h]
    have h2 := hw children t.inputs
    simp only [stackWeight] at h2
    omega

/-- Embedding of `expand_macros` (lines 105-151 of config/compiler.rs): run
the pop loop over the transform map and return the replacement transform map,
the expansion record, and the collected errors (the source returns
`Err(errors)` when that list is non-empty). -/
def expand_macros (transforms : List (String × TransformOuter)) :
    List (String × TransformOuter) × List (String × List String) × List String :=
  let st := expand_macros_loop transforms.reverse ⟨[], [], []⟩
  (st.expanded_transforms, st.expansions, st.errors)

/-- Modelled from the spec: wildcard matching of the external `glob` crate,
restricted to the `*` and `?` metacharacters (the claims exercise only `*`).
Bracket character classes are not modelled; patterns containing them are
rejected by `pattern_new`. -/
def glob_match : List Char → List Char → Bool
  | [], cs => cs.isEmpty
  | '*' :: ps, cs => (cs.tails).any (fun suffix => glob_match ps suffix)
  | '?' :: ps, _ :: cs => glob_match ps cs
  | '?' :: _, [] => false
  | p :: ps, c :: cs => p == c && glob_match ps cs
  | _ :: _, [] => false

/-- Modelled from the spec: `glob::Pattern::new`, which fails on malformed
patterns. In this model, patterns with bracket classes are the unparseable
ones. -/
def pattern_new (s : String) : Option String :=
  if s.data.contains '[' || s.data.contains ']' then none else some s

/-- The `InputMatcher` enum of config/compiler.rs: a parsed glob pattern, or a
literal string fallback when the pattern failed to parse. -/
inductive InputMatcher where
  | pattern (p : String)
  | string (s : String)
deriving DecidableEq

/-- The `InputMatcher::matches` method: glob matching for parsed patterns,
string equality for the literal fallback. -/
def InputMatcher.matches : InputMatcher → String → Bool
  | .pattern p, candidate => glob_match p.data candidate.data
  | .string s, candidate => s == candidate

/-- Matcher construction for one raw input string (lines 199-204 of
config/compiler.rs): parse it as a glob pattern, falling back to the literal
string when parsing fails. -/
def input_matcher (raw_input : String) : InputMatcher :=
  match pattern_new raw_input with
  | some p => InputMatcher.pattern p
  | none => InputMatcher.string raw_input

/-- Embedding of `expand_globs_inner`: for each raw input, push every
candidate the matcher accepts other than the component itself; when nothing
matched, keep the raw input verbatim (so later error messages can name it). -/
def expand_globs_inner (inputs : List String) (id : String)
    (candidates : List String) : List String :=
  inputs.foldl
    (fun acc raw_input =>
      let matcher := input_matcher raw_input
      let matched := candidates.filter (fun input => matcher.matches input && input != id)
      if matched.isEmpty then acc ++ [raw_input] else acc ++ matched)
    []

/-- Ordered-set insert (`IndexSet`): append unless already present. -/
def idx_insert (s : List String) (x : String) : List String :=
  if x ∈ s then s else s ++ [x]

/-- The candidate set of `expand_globs` (lines 155-169 of config/compiler.rs):
every source key, every transform key, and every `component.port` string for a
transform's named outputs, deduplicated in first-occurrence order. -/
def glob_candidates (config : ConfigBuilder) : List String :=
  (config.sources ++ config.transforms.map (fun p => p.1) ++
      config.transforms.flatMap
        (fun p => p.2.inner.namedOutputs.map (fun port => p.1 ++ "." ++ port))).foldl
    idx_insert []

/-- Embedding of `expand_globs`: expand the raw input list of every transform
and sink against the candidate set. -/
def expand_globs (config : ConfigBuilder) : ConfigBuilder :=
  let candidates := glob_candidates config
  { config with
    transforms := config.transforms.map
      (fun p => (p.1, { p.2 with inputs := expand_globs_inner p.2.inputs p.1 candidates })),
    sinks := config.sinks.map
      (fun p => (p.1, { p.2 with inputs := expand_globs_inner p.2.inputs p.1 candidates })) }

/-- Modelled from the spec: the dependency graph handed back by `Graph::new`
(graph.rs is not under src/), exposing the resolved input list per component
(`Graph::inputs_for`, here as plain strings). -/
structure GraphModel where
  inputs_for : String → List String

/-- The compiled configuration (`Config`): resolved per-component inputs plus
the expansion record. Fields without claim-relevant content are omitted. -/
structure Config where
  sources : List String
  transforms : List (String × TransformOuter)
  sinks : List (String × SinkOuter)
  expansions : List (String × List String)

/-- Embedding of `config::compiler::compile` (lines 7-101 of
config/compiler.rs). The phases whose implementations are not under src/ —
`validation::check_shape`, `validation::check_resources`, `Graph::new`,
`Graph::typecheck` and `validation::warnings` — are taken as parameters
(modelled from the spec as opaque phase functions).

The control flow is the source's: name validation accumulates; the `?` on
`expand_macros` returns the macro-expansion errors alone; glob expansion never
fails; shape and resource validation accumulate; a graph-construction failure
returns the errors accumulated so far plus the graph errors without running
typecheck; typecheck errors accumulate; inputs are resolved from the graph;
the assembled config is returned only when the accumulated error list is
empty. -/
def compile (check_shape : ConfigBuilder → List String)
    (check_resources : ConfigBuilder → List String)
    (graph_new : ConfigBuilder → Except (List String) GraphModel)
    (graph_typecheck : GraphModel → List String)
    (warnings_of : Config → List String)
    (builder : ConfigBuilder) : Except (List String) (Config × List String) :=
  let errors : List String :=
    check_names (builder.transforms.map (fun p => p.1) ++ builder.sources ++
      builder.sinks.map (fun p => p.1))
  let macroResult := expand_macros builder.transforms
  if macroResult.2.2.isEmpty = false then
    Except.error macroResult.2.2
  else
    let expansions := macroResult.2.1
    let builder := { builder with transforms := macroResult.1 }
    let builder := expand_globs builder
    let errors := errors ++ check_shape builder
    let errors := errors ++ check_resources builder
    match graph_new builder with
    | Except.error graph_errors => Except.error (errors ++ graph_errors)
    | Except.ok graph =>
      let errors := errors ++ graph_typecheck graph
      let sinks := builder.sinks.map
        (fun p => (p.1, SinkOuter.mk (graph.inputs_for p.1)))
      let transforms := builder.transforms.map
        (fun p => (p.1, { p.2 with inputs := graph.inputs_for p.1 }))
      if errors.isEmpty then
        let config : Config :=
          ⟨builder.sources, transforms, sinks, expansions⟩
        Except.ok (config, warnings_of config)
      else
        Except.error errors

end VectorConfig

namespace Schema

/-- Structural value type (`value::Kind`), modelled from the spec glossary as
the set of primitive shapes a value may take (collection element types are not
claim-relevant). The `value` crate is not under src/. -/
structure Kind where
  bytes : Bool
  integer : Bool
  float : Bool
  boolean : Bool
  timestamp : Bool
  regex : Bool
  null : Bool
  array : Bool
  object : Bool
deriving DecidableEq

/-- The Kind admitting every shape (`Kind::any`). -/
def Kind.any : Kind := ⟨true, true, true, true, true, true, true, true, true⟩

/-- The boolean-only Kind (`Kind::boolean`; named apart from the field). -/
def Kind.onlyBoolean : Kind := ⟨false, false, false, true, false, false, false, false, false⟩

/-- The integer-only Kind (`Kind::integer`; named apart from the field). -/
def Kind.onlyInteger : Kind := ⟨false, true, false, false, false, false, false, false, false⟩

/-- Modelled from the spec: `Kind::is_superset` — `self` is a superset of
`other` when `self` can represent every shape `other` can produce. -/
def Kind.is_superset (self other : Kind) : Bool :=
  (!other.bytes || self.bytes) && (!other.integer || self.integer) &&
    (!other.float || self.float) && (!other.boolean || self.boolean) &&
    (!other.timestamp || self.timestamp) && (!other.regex || self.regex) &&
    (!other.null || self.null) && (!other.array || self.array) &&
    (!other.object || self.object)

/-- Modelled from the spec: the schema `Definition` interface the validator
consumes — `meanings()` as an ordered (identifier, path) list,
`invalid_meaning(identifier)` as the duplicate path set of an ambiguous
identifier, and `collection().find_known_at_path(path).ok().flatten()` as an
optional Kind per path. Paths are opaque strings. -/
structure Definition where
  meanings : List (String × String)
  invalid_meanings : List (String × List String)
  kind_at : String → Option Kind

/-- Lookup of `Definition::invalid_meaning`. -/
def Definition.invalid_meaning (d : Definition) (identifier : String) :
    Option (List String) :=
  (d.invalid_meanings.find? (fun p => p.1 == identifier)).map (fun p => p.2)

/-- One required or optional semantic meaning (`SemanticMeaning`). -/
structure SemanticMeaning where
  kind : Kind
  optional : Bool
deriving DecidableEq

/-- The input schema requirement (`Requirement`): configured semantic meanings
keyed by identifier. The source stores a `BTreeMap`; the model keeps an
association list (no claim depends on iteration order). -/
structure Requirement where
  meaning : List (String × SemanticMeaning)
deriving DecidableEq

/-- The requirement with no restrictions (`Requirement::empty`). -/
def Requirement.empty : Requirement := ⟨[]⟩

/-- Add a required meaning (`Requirement::required_meaning`). -/
def Requirement.required_meaning (r : Requirement) (identifier : String) (kind : Kind) :
    Requirement :=
  ⟨r.meaning ++ [(identifier, ⟨kind, false⟩)]⟩

/-- Add an optional meaning (`Requirement::optional_meaning`). -/
def Requirement.optional_meaning (r : Requirement) (identifier : String) (kind : Kind) :
    Requirement :=
  ⟨r.meaning ++ [(identifier, ⟨kind, true⟩)]⟩

/-- Validation errors of `Requirement::validate`. -/
inductive ValidationError where
  | meaningMissing (identifier : String)
  | meaningKind (identifier : String) (want : Kind) (got : Kind)
  | meaningDuplicate (identifier : String) (paths : List String)
deriving DecidableEq

/-- Embedding of `Requirement::validate` (lines 82-136 of requirement.rs): for
each configured meaning, record a duplicate error and skip further checks when
the definition reports the identifier ambiguous; otherwise find the bound
path, defaulting the kind found there to `any`, and record a kind-mismatch
error when the required kind is not a superset; a missing binding records a
missing-meaning error unless the meaning is optional. Returns the collected
errors when any exist. -/
def validate (req : Requirement) (definition : Definition) :
    Except (List ValidationError) Unit :=
  let errors := req.meaning.foldl
    (fun errors idMeaning =>
      let identifier := idMeaning.1
      let req_meaning := idMeaning.2
      match definition.invalid_meaning identifier with
      | some paths => errors ++ [ValidationError.meaningDuplicate identifier paths]
      | none =>
        let maybe_meaning_path :=
          (definition.meanings.find? (fun p => p.1 == identifier)).map (fun p => p.2)
        match maybe_meaning_path with
        | some path =>
          let definition_kind := (definition.kind_at path).getD Kind.any
          if req_meaning.kind.is_superset definition_kind = false then
            errors ++ [ValidationError.meaningKind identifier req_meaning.kind definition_kind]
          else
            errors
        | none =>
          if req_meaning.optional = false then
            errors ++ [ValidationError.meaningMissing identifier]
          else
            errors)
    []
  if errors.isEmpty then Except.ok () else Except.error errors

/-- The decision the claim ascribes to `validate` for one configured meaning,
written from the claim's words: a duplicate error (and nothing else) when the
identifier is ambiguous; otherwise, when bound to a path, a kind error exactly
when the required Kind is not a superset of the kind found there (defaulting
to any); otherwise a missing error exactly when required; no error when
unbound and optional. -/
def decide_meaning (definition : Definition) (identifier : String)
    (req_meaning : SemanticMeaning) : List ValidationError :=
  match definition.invalid_meaning identifier with
  | some paths => [ValidationError.meaningDuplicate identifier paths]
  | none =>
    match (definition.meanings.find? (fun p => p.1 == identifier)).map (fun p => p.2) with
    | some path =>
      let got := (definition.kind_at path).getD Kind.any
      if req_meaning.kind.is_superset got then []
      else [ValidationError.meaningKind identifier req_meaning.kind got]
    | none =>
      if req_meaning.optional then [] else [ValidationError.meaningMissing identifier]

end Schema

namespace VectorConfig

/-- The inputs the claim expects for the i-th child of an expansion: under
Parallel every child receives the parent's original inputs; under Serial the
first child receives the parent's original inputs and each later child exactly
the key of the previous child. -/
def expected_child_inputs (k : String) (parentInputs : List String)
    (children : List String) (ty : ExpandType) (i : Nat) : List String :=
  match ty with
  | ExpandType.parallel => parentInputs
  | ExpandType.serial =>
    if i = 0 then parentInputs else [k ++ "." ++ children.getD (i - 1) ""]

/-- Every key a work-stack entry will ever contribute to the transform or
expansion maps: its own key, plus its children's namespaced keys when it
expands. -/
def derivedKeys (l : List (String × TransformOuter)) : List String :=
  l.flatMap
    (fun p =>
      match p.2.inner.expandSpec with
      | ExpandSpec.expandsTo cs _ => p.1 :: cs.map (fun name => p.1 ++ "." ++ name)
      | _ => [p.1])

end VectorConfig

namespace VectorConfig

/-- The contribution of one raw input string to the resolved input list of
`expand_globs_inner`: the matched candidates, or the raw string verbatim when
nothing matched. -/
def glob_step (id : String) (candidates : List String) (raw_input : String) :
    List String :=
  let matcher := input_matcher raw_input
  let matched := candidates.filter (fun input => matcher.matches input && input != id)
  if matched.isEmpty then [raw_input] else matched

end VectorConfig

namespace VectorConfig

/-- The macro-expansion errors of a builder (the list whose non-emptiness makes
the `?` in `compile` return early). -/
def macro_errors (builder : ConfigBuilder) : List String :=
  (expand_macros builder.transforms).2.2

/-- The builder as `compile` sees it after macro and glob expansion. -/
def globbed (builder : ConfigBuilder) : ConfigBuilder :=
  expand_globs { builder with transforms := (expand_macros builder.transforms).1 }

/-- The name-validation errors `compile` accumulates first. -/
def name_errors (builder : ConfigBuilder) : List String :=
  check_names (builder.transforms.map (fun p => p.1) ++ builder.sources ++
    builder.sinks.map (fun p => p.1))

/-- All errors `compile` has accumulated by the time the graph is built:
name validation, then shape validation, then resource validation. -/
def pre_graph_errors (check_shape check_resources : ConfigBuilder → List String)
    (builder : ConfigBuilder) : List String :=
  (name_errors builder ++ check_shape (globbed builder)) ++ check_resources (globbed builder)

end VectorConfig

namespace Vrl

/-- The root-expression loop only ever appends to the emitted-expression
accumulator. -/
theorem compile_root_exprs_loop_acc (nodes : List RootExpr) :
    ∀ st external acc term, ∃ extra,
      (compile_root_exprs_loop nodes st external acc term).1 = acc ++ extra := by
  induction nodes with
  | nil => intro st external acc term; exact ⟨[], by simp [compile_root_exprs_loop]⟩
  | cons root rest ih =>
    intro st external acc term
    match root with
    | RootExpr.error msg => simpa [compile_root_exprs_loop] using ih _ _ _ _
    | RootExpr.expr e =>
      simp only [compile_root_exprs_loop]
      rcases h : compile_expr e { st with fallible_expression_error := none } with ⟨res, st1⟩
      match res with
      | none => simpa using ih _ _ _ _
      | some expr =>
        simp only []
        by_cases ht : term = none
        · subst ht
          simp only [Option.isNone_none, if_true]
          by_cases hn : (expr.type_def).never = true
          · simp only [hn, if_true]
            rcases ih _ _ (acc ++ [expr]) _ with ⟨extra, hx⟩
            exact ⟨[expr] ++ extra, by rw [hx, List.append_assoc]⟩
          · simp only [Bool.not_eq_true] at hn
            simp only [hn, Bool.false_eq_true, if_false]
            rcases ih _ _ (acc ++ [expr]) _ with ⟨extra, hx⟩
            exact ⟨[expr] ++ extra, by rw [hx, List.append_assoc]⟩
        · rcases Option.ne_none_iff_exists.mp ht with ⟨ts, hts⟩
          subst hts
          simpa using ih _ _ _ _

/-- After the terminal expression has been recorded, the loop never emits
another expression. -/
theorem compile_root_exprs_loop_terminated (nodes : List RootExpr) :
    ∀ st external acc tstate,
      (compile_root_exprs_loop nodes st external acc (some tstate)).1 = acc := by
  induction nodes with
  | nil => intro st external acc tstate; simp [compile_root_exprs_loop]
  | cons root rest ih =>
    intro st external acc tstate
    match root with
    | RootExpr.error msg => simpa [compile_root_exprs_loop] using ih _ _ _ _
    | RootExpr.expr e =>
      simp only [compile_root_exprs_loop]
      rcases compile_expr e { st with fallible_expression_error := none } with ⟨res, st1⟩
      match res with
      | none => simpa using ih _ _ _ _
      | some expr => simpa using ih _ _ _ _

/-- Claim C10: a compiled program's expression list is never empty; in
particular the empty program and a program made only of parser-error root
nodes compile to exactly one Noop expression. -/
theorem c10_program_never_empty :
    (∀ nodes st external, (compile_root_exprs nodes st external).1 ≠ []) ∧
    (∀ st external, (compile_root_exprs [] st external).1 = [Expr.noop]) ∧
    (∀ (msgs : List String) st external,
      (compile_root_exprs (msgs.map RootExpr.error) st external).1 = [Expr.noop]) ∧
    (∀ external p warns, compile [] external = Except.ok (p, warns) →
      p.expressions = [Expr.noop]) := by
  have herr : ∀ (msgs : List String) st external acc term,
      (compile_root_exprs_loop (msgs.map RootExpr.error) st external acc term).1 = acc := by
    intro msgs
    induction msgs with
    | nil => intro st external acc term; simp [compile_root_exprs_loop]
    | cons m rest ih => intro st external acc term; simpa [compile_root_exprs_loop] using ih _ _ _ _
  refine ⟨?_, ?_, ?_, ?_⟩
  · intro nodes st external
    simp only [compile_root_exprs]
    rcases h : (compile_root_exprs_loop nodes st external [] none).1 with _ | ⟨e, rest⟩
    · simp [h]
    · simp [h]
  · intro st external
    simp [compile_root_exprs, compile_root_exprs_loop]
  · intro msgs st external
    simp [compile_root_exprs, herr msgs]
  · intro external p warns h
    rw [show compile [] external =
        Except.ok ({ expressions := [Expr.noop], info := ⟨false, false⟩ }, []) from rfl] at h
    simp only [Except.ok.injEq, Prod.mk.injEq] at h
    rw [← h.1]

/-- Claim C9: compilation fails exactly when a diagnostic of severity Bug or
Error was accumulated, the failure list being precisely those diagnostics (in
particular non-empty), and a success carries precisely the remaining
diagnostics as warnings. -/
theorem c9_error_warning_classification (ast : List RootExpr) (external : ExternalEnv) :
    (∀ errs, compile ast external = Except.error errs →
      errs ≠ [] ∧ errs = (compiled_diagnostics ast external).filter
        (fun d => d.is_critical)) ∧
    (∀ p warns, compile ast external = Except.ok (p, warns) →
      warns = (compiled_diagnostics ast external).filter (fun d => !(d.is_critical)) ∧
      (compiled_diagnostics ast external).filter (fun d => d.is_critical) = []) := by
  simp only [compile, compiled_diagnostics, List.partition_eq_filter_filter,
    Diagnostic.is_critical, Function.comp]
  split
  next hcond =>
    refine ⟨?_, ?_⟩
    · intro errs herrs
      rw [Except.error.injEq] at herrs
      subst herrs
      exact ⟨List.isEmpty_eq_false.mp hcond, rfl⟩
    · intro p warns hok
      exact absurd hok (by simp)
  next hcond =>
    refine ⟨?_, ?_⟩
    · intro errs herrs
      exact absurd herrs (by simp)
    · intro p warns hok
      rw [Except.ok.injEq, Prod.mk.injEq] at hok
      refine ⟨hok.2.symm, ?_⟩
      rw [Bool.not_eq_false] at hcond
      exact List.isEmpty_iff.mp hcond

end Vrl

namespace Schema

/-- The error accumulator of `validate` appends, per configured meaning,
exactly the errors described by `decide_meaning`. -/
theorem validate_foldl_flatMap (definition : Definition) (l : List (String × SemanticMeaning)) :
    ∀ errs0 : List ValidationError,
      l.foldl
        (fun errors idMeaning =>
          let identifier := idMeaning.1
          let req_meaning := idMeaning.2
          match definition.invalid_meaning identifier with
          | some paths => errors ++ [ValidationError.meaningDuplicate identifier paths]
          | none =>
            let maybe_meaning_path :=
              (definition.meanings.find? (fun p => p.1 == identifier)).map (fun p => p.2)
            match maybe_meaning_path with
            | some path =>
              let definition_kind := (definition.kind_at path).getD Kind.any
              if req_meaning.kind.is_superset definition_kind = false then
                errors ++ [ValidationError.meaningKind identifier req_meaning.kind definition_kind]
              else
                errors
            | none =>
              if req_meaning.optional = false then
                errors ++ [ValidationError.meaningMissing identifier]
              else
                errors)
        errs0 =
      errs0 ++ l.flatMap (fun p => decide_meaning definition p.1 p.2) := by
  induction l with
  | nil => intro errs0; simp
  | cons hd tl ih =>
    intro errs0
    rw [List.foldl_cons, List.flatMap_cons, ih]
    have hstep : ∀ errs : List ValidationError,
        (match definition.invalid_meaning hd.1 with
          | some paths => errs ++ [ValidationError.meaningDuplicate hd.1 paths]
          | none =>
            match (definition.meanings.find? (fun p => p.1 == hd.1)).map (fun p => p.2) with
            | some path =>
              if hd.2.kind.is_superset ((definition.kind_at path).getD Kind.any) = false then
                errs ++ [ValidationError.meaningKind hd.1 hd.2.kind
                  ((definition.kind_at path).getD Kind.any)]
              else
                errs
            | none =>
              if hd.2.optional = false then
                errs ++ [ValidationError.meaningMissing hd.1]
              else
                errs) =
          errs ++ decide_meaning definition hd.1 hd.2 := by
      intro errs
      simp only [decide_meaning]
      rcases hinv : definition.invalid_meaning hd.1 with _ | paths
      · simp only [hinv]
        rcases hfind : (definition.meanings.find? (fun p => p.1 == hd.1)).map (fun p => p.2)
          with _ | path
        · simp only [hfind]
          rcases hopt : hd.2.optional with _ | _ <;> simp [hopt]
        · simp only [hfind]
          rcases hsup : hd.2.kind.is_superset ((definition.kind_at path).getD Kind.any)
            with _ | _ <;> simp [hsup]
      · simp [hinv]
    rw [hstep errs0, List.append_assoc]

/-- Claim C4: `validate` decides each configured meaning exactly as the claim
describes (via `decide_meaning`), returns Ok iff the collected error set is
empty, and on failure returns the complete error set. -/
theorem c4_requirement_validate_complete (req : Requirement) (definition : Definition) :
    validate req definition =
      (if (req.meaning.flatMap (fun p => decide_meaning definition p.1 p.2)).isEmpty then
        Except.ok ()
      else
        Except.error (req.meaning.flatMap (fun p => decide_meaning definition p.1 p.2))) ∧
    (validate req definition = Except.ok () ↔
      req.meaning.flatMap (fun p => decide_meaning definition p.1 p.2) = []) := by
  have h : validate req definition =
      (if (req.meaning.flatMap (fun p => decide_meaning definition p.1 p.2)).isEmpty then
        Except.ok ()
      else
        Except.error (req.meaning.flatMap (fun p => decide_meaning definition p.1 p.2))) := by
    simp only [validate]
    rw [validate_foldl_flatMap definition req.meaning []]
    simp
  refine ⟨h, ?_⟩
  rw [h]
  by_cases hm : (req.meaning.flatMap (fun p => decide_meaning definition p.1 p.2)).isEmpty
  · have hnil := List.isEmpty_iff.mp hm
    simp [hm, hnil]
  · rw [Bool.not_eq_true] at hm
    have hne : req.meaning.flatMap (fun p => decide_meaning definition p.1 p.2) ≠ [] :=
      List.isEmpty_eq_false.mp hm
    simp [hm, hne]

end Schema

namespace VectorConfig

/-- The fold of `expand_globs_inner` concatenates the per-raw-input
contributions. -/
theorem expand_globs_inner_eq_flatMap (inputs : List String) (id : String)
    (candidates : List String) :
    expand_globs_inner inputs id candidates = inputs.flatMap (glob_step id candidates) := by
  have haux : ∀ (l : List String) (acc : List String),
      l.foldl
        (fun acc raw_input =>
          let matcher := input_matcher raw_input
          let matched := candidates.filter (fun input => matcher.matches input && input != id)
          if matched.isEmpty then acc ++ [raw_input] else acc ++ matched)
        acc = acc ++ l.flatMap (glob_step id candidates) := by
    intro l
    induction l with
    | nil => intro acc; simp
    | cons hd tl ih =>
      intro acc
      rw [List.foldl_cons, List.flatMap_cons]
      simp only [glob_step]
      by_cases hm : (candidates.filter
          (fun input => (input_matcher hd).matches input && input != id)).isEmpty
      · simp only [hm, if_true]
        rw [ih, List.append_assoc]
      · simp only [hm, Bool.false_eq_true, if_false]
        rw [ih, List.append_assoc]
  simpa [expand_globs_inner] using haux inputs []

/-- Membership in the `IndexSet` fold that builds the candidate set. -/
theorem foldl_idx_insert_mem (l : List String) :
    ∀ (acc : List String) (x : String),
      x ∈ l.foldl idx_insert acc ↔ x ∈ acc ∨ x ∈ l := by
  induction l with
  | nil => intro acc x; simp
  | cons hd tl ih =>
    intro acc x
    rw [List.foldl_cons, ih]
    simp only [idx_insert]
    by_cases hmem : hd ∈ acc
    · simp only [hmem, if_true, List.mem_cons]
      constructor
      · rintro (hx | hx)
        · exact Or.inl hx
        · exact Or.inr (Or.inr hx)
      · rintro (hx | hx | hx)
        · exact Or.inl hx
        · exact Or.inl (hx ▸ hmem)
        · exact Or.inr hx
    · simp only [hmem, if_false, List.mem_append, List.mem_singleton, List.mem_cons]
      tauto

/-- Claim C7: the concrete example — sources foo1, foo2, bar and a sink with
input list ["foo*"] resolve to exactly [foo1, foo2] — together with the
general facts that glob expansion only introduces candidate-set members other
than the component's own id (anything else in the result was a raw input kept
verbatim), that the candidate set is exactly the source keys, transform keys
and component.port named outputs, and that every sink's inputs are resolved
against that candidate set with the sink's id excluded. -/
theorem c7_glob_expansion :
    ((expand_globs ⟨["foo1", "foo2", "bar"], [], [("out", ⟨["foo*"]⟩)]⟩).sinks
      = [("out", ⟨["foo1", "foo2"]⟩)]) ∧
    (∀ inputs id candidates x, x ∈ expand_globs_inner inputs id candidates →
      (x ∈ candidates ∧ x ≠ id) ∨ x ∈ inputs) ∧
    (∀ b x, x ∈ glob_candidates b ↔
      (x ∈ b.sources ∨ x ∈ b.transforms.map (fun p => p.1) ∨
        x ∈ b.transforms.flatMap
          (fun p => p.2.inner.namedOutputs.map (fun port => p.1 ++ "." ++ port)))) ∧
    (∀ b k s, (k, s) ∈ b.sinks →
      (k, SinkOuter.mk (expand_globs_inner s.inputs k (glob_candidates b)))
        ∈ (expand_globs b).sinks) := by
  refine ⟨rfl, ?_, ?_, ?_⟩
  · intro inputs id candidates x hx
    rw [expand_globs_inner_eq_flatMap, List.mem_flatMap] at hx
    rcases hx with ⟨raw, hraw, hstep⟩
    simp only [glob_step] at hstep
    by_cases hm : (candidates.filter
        (fun input => (input_matcher raw).matches input && input != id)).isEmpty
    · rw [if_pos hm] at hstep
      rw [List.mem_singleton] at hstep
      exact Or.inr (hstep ▸ hraw)
    · rw [if_neg hm] at hstep
      rw [List.mem_filter] at hstep
      refine Or.inl ⟨hstep.1, ?_⟩
      have := hstep.2
      rw [Bool.and_eq_true] at this
      simpa [bne] using this.2
  · intro b x
    rw [glob_candidates, foldl_idx_insert_mem]
    simp
  · intro b k s hks
    simp only [expand_globs]
    rw [List.mem_map]
    exact ⟨(k, s), hks, rfl⟩

/-- Claim C8: a raw input string matching zero candidates (other than the
component itself) is preserved verbatim in the resolved inputs, and more
generally each raw input contributes at least one entry — the resolved list
never silently drops an input. -/
theorem c8_unmatched_glob_preserved :
    (∀ inputs id candidates raw, raw ∈ inputs →
      candidates.filter (fun c => (input_matcher raw).matches c && c != id) = [] →
      raw ∈ expand_globs_inner inputs id candidates) ∧
    (∀ inputs id candidates,
      inputs.length ≤ (expand_globs_inner inputs id candidates).length) := by
  constructor
  · intro inputs id candidates raw hmem hfilter
    rw [expand_globs_inner_eq_flatMap, List.mem_flatMap]
    refine ⟨raw, hmem, ?_⟩
    simp [glob_step, hfilter]
  · intro inputs id candidates
    rw [expand_globs_inner_eq_flatMap]
    induction inputs with
    | nil => simp
    | cons hd tl ih =>
      rw [List.flatMap_cons, List.length_append, List.length_cons]
      have hone : 1 ≤ (glob_step id candidates hd).length := by
        simp only [glob_step]
        by_cases hm : (candidates.filter
            (fun input => (input_matcher hd).matches input && input != id)).isEmpty
        · simp [hm]
        · rw [if_neg hm]
          rw [Bool.not_eq_true, List.isEmpty_eq_false] at hm
          exact List.length_pos.mpr hm
      omega

end VectorConfig

namespace Vrl

/-- Compiling an expression only appends diagnostics, and never appends the
pending fallible-expression error itself: that diagnostic is pushed solely by
the root-expression loop. -/
theorem compile_expr_diagnostics (e : AstExpr) :
    ∀ st : CompilerState, ∃ extra,
      ((compile_expr e st).2).diagnostics = st.diagnostics ++ extra ∧
        Diagnostic.fallibleError ∉ extra := by
  have htrack : ∀ p : Option Expr × CompilerState,
      ((track_fallibility p).2).diagnostics = (p.2).diagnostics := by
    rintro ⟨res, st⟩
    match res with
    | none => rfl
    | some expr =>
      simp [track_fallibility, apply_ite (fun s : CompilerState => s.diagnostics)]
  induction e with
  | literal =>
    intro st
    exact ⟨[], by simp [compile_expr, htrack], by simp⟩
  | var ident =>
    intro st
    by_cases h1 : ident ∈ st.skip_missing_query_target
    · exact ⟨[], by simp [compile_expr, compile_variable, h1, htrack], by simp⟩
    · by_cases h2 : ident ∈ st.localEnv.bindings
      · exact ⟨[], by simp [compile_expr, compile_variable, h1, h2, htrack], by simp⟩
      · exact ⟨[Diagnostic.undefinedVariable ident],
          by simp [compile_expr, compile_variable, h1, h2, htrack,
            CompilerState.push_diagnostic],
          by simp⟩
  | functionCall f a =>
    intro st
    refine ⟨[], ?_, by simp⟩
    simp only [compile_expr, htrack]
    by_cases ha : a <;> simp [ha]
  | op lhs opcode rhs ihl ihr =>
    intro st
    rcases ihl st with ⟨e1, he1, hn1⟩
    rcases h1 : compile_expr lhs st with ⟨res1, stA⟩
    rw [h1] at he1
    replace he1 : stA.diagnostics = st.diagnostics ++ e1 := he1
    simp only [compile_expr, htrack]
    rw [h1]
    match res1 with
    | none => exact ⟨e1, by simpa [bindStep] using he1, hn1⟩
    | some l =>
      simp only [bindStep]
      rcases ihr (if opcode = Opcode.err then { stA with fallible_expression_error := none }
        else stA) with ⟨e2, he2, hn2⟩
      rcases h2 : compile_expr rhs (if opcode = Opcode.err then
        { stA with fallible_expression_error := none } else stA) with ⟨res2, stC⟩
      rw [h2] at he2
      have hBd : (if opcode = Opcode.err then { stA with fallible_expression_error := none }
          else stA).diagnostics = stA.diagnostics := by
        by_cases ho : opcode = Opcode.err <;> simp [ho]
      replace he2 : stC.diagnostics = st.diagnostics ++ (e1 ++ e2) := by
        have h3 : stC.diagnostics = (if opcode = Opcode.err then
            { stA with fallible_expression_error := none } else stA).diagnostics ++ e2 := he2
        rw [h3, hBd, he1, List.append_assoc]
      match res2 with
      | none => exact ⟨e1 ++ e2, he2, by simp [hn1, hn2]⟩
      | some r => exact ⟨e1 ++ e2, he2, by simp [hn1, hn2]⟩
  | assignmentSingle target e ihe =>
    intro st
    rcases ihe st with ⟨e1, he1, hn1⟩
    rcases h1 : compile_expr e st with ⟨res1, stA⟩
    rw [h1] at he1
    replace he1 : stA.diagnostics = st.diagnostics ++ e1 := he1
    simp only [compile_expr, htrack]
    rw [h1]
    match res1 with
    | none => exact ⟨e1, he1, hn1⟩
    | some ce => exact ⟨e1, he1, hn1⟩
  | assignmentInfallible okT errT e ihe =>
    intro st
    rcases ihe st with ⟨e1, he1, hn1⟩
    rcases h1 : compile_expr e st with ⟨res1, stA⟩
    rw [h1] at he1
    replace he1 : stA.diagnostics = st.diagnostics ++ e1 := he1
    simp only [compile_expr, htrack]
    rw [h1]
    match res1 with
    | none => exact ⟨e1, he1, hn1⟩
    | some ce => exact ⟨e1, he1, hn1⟩
  | abort =>
    intro st
    exact ⟨[], by simp [compile_expr, htrack], by simp⟩
  | abortWithMessage m ihm =>
    intro st
    rcases ihm { st with abortable := true } with ⟨e1, he1, hn1⟩
    rcases h1 : compile_expr m { st with abortable := true } with ⟨res1, stA⟩
    rw [h1] at he1
    replace he1 : stA.diagnostics = st.diagnostics ++ e1 := he1
    simp only [compile_expr, htrack]
    rw [h1]
    match res1 with
    | none => exact ⟨e1, he1, hn1⟩
    | some cm => exact ⟨e1, he1, hn1⟩

end Vrl

namespace Vrl

/-- The fallibility-tracking wrapper never changes the program-wide fallible
flag (it only records the pending diagnostic). -/
theorem track_fallibility_fallible (p : Option Expr × CompilerState) :
    ((track_fallibility p).2).fallible = (p.2).fallible := by
  rcases p with ⟨res, st⟩
  match res with
  | none => rfl
  | some expr =>
    simp [track_fallibility, apply_ite (fun s : CompilerState => s.fallible)]

/-- Compiling an expression never clears the program-wide fallible flag. -/
theorem compile_expr_fallible_mono (e : AstExpr) :
    ∀ st : CompilerState, st.fallible = true → ((compile_expr e st).2).fallible = true := by
  induction e with
  | literal => intro st h; simpa [compile_expr, track_fallibility_fallible]
  | var ident =>
    intro st h
    simp only [compile_expr, track_fallibility_fallible]
    by_cases h1 : ident ∈ st.skip_missing_query_target
    · simpa [compile_variable, h1]
    · by_cases h2 : ident ∈ st.localEnv.bindings
      · simpa [compile_variable, h1, h2]
      · simpa [compile_variable, h1, h2, CompilerState.push_diagnostic]
  | functionCall f a =>
    intro st h
    simp only [compile_expr, track_fallibility_fallible]
    by_cases ha : a <;> simp [ha, h]
  | op lhs opcode rhs ihl ihr =>
    intro st h
    simp only [compile_expr, track_fallibility_fallible]
    rcases h1 : compile_expr lhs st with ⟨res1, stA⟩
    have hA : stA.fallible = true := by
      have := ihl st h
      rw [h1] at this
      exact this
    match res1 with
    | none => simpa [bindStep]
    | some l =>
      simp only [bindStep]
      have hB : (if opcode = Opcode.err then { stA with fallible_expression_error := none }
          else stA).fallible = true := by
        by_cases ho : opcode = Opcode.err <;> simp [ho, hA]
      rcases h2 : compile_expr rhs (if opcode = Opcode.err then
        { stA with fallible_expression_error := none } else stA) with ⟨res2, stC⟩
      have hC : stC.fallible = true := by
        have := ihr _ hB
        rw [h2] at this
        exact this
      match res2 with
      | none => exact hC
      | some r => exact hC
  | assignmentSingle target e ihe =>
    intro st h
    simp only [compile_expr, track_fallibility_fallible]
    rcases h1 : compile_expr e st with ⟨res1, stA⟩
    have hA : stA.fallible = true := by
      have := ihe st h
      rw [h1] at this
      exact this
    match res1 with
    | none => exact hA
    | some ce => exact hA
  | assignmentInfallible okT errT e ihe =>
    intro st h
    simp only [compile_expr, track_fallibility_fallible]
    rcases h1 : compile_expr e st with ⟨res1, stA⟩
    have hA : stA.fallible = true := by
      have := ihe st h
      rw [h1] at this
      exact this
    match res1 with
    | none => exact hA
    | some ce => exact hA
  | abort => intro st h; simpa [compile_expr, track_fallibility_fallible]
  | abortWithMessage m ihm =>
    intro st h
    simp only [compile_expr, track_fallibility_fallible]
    rcases h1 : compile_expr m { st with abortable := true } with ⟨res1, stA⟩
    have hA : stA.fallible = true := by
      have := ihm { st with abortable := true } (by simpa)
      rw [h1] at this
      exact this
    match res1 with
    | none => exact hA
    | some cm => exact hA

/-- Compiling a function call with the abort_on_error syntax sets the
program-wide fallible flag and succeeds (the call expression itself is
infallible, since its errors abort). -/
theorem compile_expr_call_abort_on_error (f : Bool) (st : CompilerState) :
    compile_expr (AstExpr.functionCall f true) st =
      (some (Expr.functionCall f true), { st with fallible := true }) := by
  simp [compile_expr, track_fallibility, Expr.type_def]

/-- The root-expression loop never clears the program-wide fallible flag. -/
theorem compile_root_exprs_loop_fallible_mono (nodes : List RootExpr) :
    ∀ st external acc term, st.fallible = true →
      ((compile_root_exprs_loop nodes st external acc term).2.1).fallible = true := by
  induction nodes with
  | nil => intro st external acc term h; simpa [compile_root_exprs_loop]
  | cons root rest ih =>
    intro st external acc term h
    match root with
    | RootExpr.error msg =>
      exact ih _ _ _ _ (by simpa [CompilerState.push_diagnostic])
    | RootExpr.expr e =>
      simp only [compile_root_exprs_loop]
      rcases h1 : compile_expr e { st with fallible_expression_error := none } with ⟨res1, stA⟩
      have hA : stA.fallible = true := by
        have := compile_expr_fallible_mono e { st with fallible_expression_error := none }
          (by simpa)
        rw [h1] at this
        exact this
      match res1 with
      | none => exact ih _ _ _ _ hA
      | some expr =>
        rcases hfee : stA.fallible_expression_error with _ | d
        · simp only [hfee]
          by_cases ht : term = none
          · subst ht
            by_cases hn : (expr.type_def).never = true
            · simp only [hn]
              simpa using ih _ _ _ _ hA
            · rw [Bool.not_eq_true] at hn
              simp only [hn]
              simpa using ih _ _ _ _ hA
          · rcases Option.ne_none_iff_exists.mp ht with ⟨ts, hts⟩
            subst hts
            simpa using ih _ _ _ _ hA
        · simp only [hfee]
          by_cases ht : term = none
          · subst ht
            by_cases hn : (expr.type_def).never = true
            · simp only [hn]
              exact ih _ _ _ _ (by simp [hA])
            · rw [Bool.not_eq_true] at hn
              simp only [hn]
              exact ih _ _ _ _ (by simp [hA])
          · rcases Option.ne_none_iff_exists.mp ht with ⟨ts, hts⟩
            subst hts
            exact ih _ _ _ _ (by simp [hA])

end Vrl

namespace Vrl

/-- Running the root-expression loop over a program that contains a function
call using the abort_on_error syntax leaves the program-wide fallible flag
set. -/
theorem compile_root_exprs_loop_call_fallible (pre : List RootExpr)
    (post : List RootExpr) (f : Bool) :
    ∀ st external acc term,
      ((compile_root_exprs_loop
        (pre ++ RootExpr.expr (AstExpr.functionCall f true) :: post)
        st external acc term).2.1).fallible = true := by
  induction pre with
  | nil =>
    intro st external acc term
    rw [List.nil_append]
    simp only [compile_root_exprs_loop]
    rw [compile_expr_call_abort_on_error f { st with fallible_expression_error := none }]
    by_cases ht : term = none
    · subst ht
      exact compile_root_exprs_loop_fallible_mono post _ _ _ _ (by simp)
    · rcases Option.ne_none_iff_exists.mp ht with ⟨ts, hts⟩
      subst hts
      exact compile_root_exprs_loop_fallible_mono post _ _ _ _ (by simp)
  | cons root pre ih =>
    intro st external acc term
    rw [List.cons_append]
    match root with
    | RootExpr.error msg =>
      simpa [compile_root_exprs_loop] using ih _ _ _ _
    | RootExpr.expr e =>
      simp only [compile_root_exprs_loop]
      rcases h1 : compile_expr e { st with fallible_expression_error := none } with ⟨res1, stA⟩
      match res1 with
      | none => exact ih _ _ _ _
      | some expr =>
        rcases hfee : stA.fallible_expression_error with _ | d
        · simp only [hfee]
          by_cases ht : term = none
          · subst ht
            by_cases hn : (expr.type_def).never = true
            · simp only [hn]
              exact ih _ _ _ _
            · rw [Bool.not_eq_true] at hn
              simp only [hn]
              exact ih _ _ _ _
          · rcases Option.ne_none_iff_exists.mp ht with ⟨ts, hts⟩
            subst hts
            exact ih _ _ _ _
        · simp only [hfee]
          by_cases ht : term = none
          · subst ht
            by_cases hn : (expr.type_def).never = true
            · simp only [hn]
              exact ih _ _ _ _
            · rw [Bool.not_eq_true] at hn
              simp only [hn]
              exact ih _ _ _ _
          · rcases Option.ne_none_iff_exists.mp ht with ⟨ts, hts⟩
            subst hts
            exact ih _ _ _ _

/-- The terminal-state commit of `compile_root_exprs` does not change the
fallible flag. -/
theorem compile_root_exprs_fallible (nodes : List RootExpr) (st : CompilerState)
    (external : ExternalEnv) :
    ((compile_root_exprs nodes st external).2.1).fallible =
      ((compile_root_exprs_loop nodes st external [] none).2.1).fallible := by
  simp only [compile_root_exprs]
  rcases h : (compile_root_exprs_loop nodes st external [] none).2.2.2 with _ | le
  · simp [h]
  · simp [h]

end Vrl

namespace Vrl

/-- Claim C3, corrected: the claim as stated is false (see the counterexample
theorem); what holds is that the abort_on_error call syntax marks the whole
program fallible — every successfully compiled program containing a function
call compiled with abort_on_error has ProgramInfo.fallible = true. -/
theorem c3_amended_abort_on_error_marks_fallible (pre post : List RootExpr)
    (f : Bool) (external : ExternalEnv) (p : Program) (warns : List Diagnostic) :
    compile (pre ++ RootExpr.expr (AstExpr.functionCall f true) :: post) external
      = Except.ok (p, warns) →
    p.info.fallible = true := by
  intro h
  have hf : ((compile_root_exprs (pre ++ RootExpr.expr (AstExpr.functionCall f true) :: post)
      CompilerState.new external).2.1).fallible = true := by
    rw [compile_root_exprs_fallible]
    exact compile_root_exprs_loop_call_fallible pre post f _ _ _ _
  simp only [compile] at h
  split at h
  · exact absurd h (by simp)
  · simp only [Except.ok.injEq, Prod.mk.injEq] at h
    rw [← h.1]
    exact hf

/-- Witness for the amended C3 theorem at a concrete program. -/
theorem c3_amended_witness :
    compile ([] ++ RootExpr.expr (AstExpr.functionCall true true) :: []) ⟨0⟩
        = Except.ok (Program.mk [Expr.functionCall true true] (ProgramInfo.mk true false), []) ∧
      (Program.mk [Expr.functionCall true true] (ProgramInfo.mk true false)).info.fallible
        = true :=
  ⟨rfl, c3_amended_abort_on_error_marks_fallible [] [] true ⟨0⟩ _ [] rfl⟩

/-- Counterexample to claim C3 as stated: the program consisting of the single
call `foo!()` (abort_on_error syntax) compiles successfully, and its
ProgramInfo has abortable = false (and fallible = true): the abort_on_error
syntax does not mark the program abortable. -/
theorem c3_counterexample_abort_on_error_not_abortable :
    compile [RootExpr.expr (AstExpr.functionCall true true)] ⟨0⟩
      = Except.ok (Program.mk [Expr.functionCall true true] (ProgramInfo.mk true false), []) :=
  rfl

/-- Claim C1, corrected: for root expressions `[t, e2, e3]` where the compiled
`t` has the "never" type, the emitted expression list is exactly the compiled
`t` (so `e2`, `e3` are not part of the program — the first conjunct); but the
claim's assertion that no undefined-variable diagnostics are raised for `e2`
and `e3` is false: later root expressions are still compiled and checked, and
their diagnostics are kept (second conjunct, on a concrete program). -/
theorem c1_amended_terminal_truncation :
    (∀ (t : AstExpr) (rest : List RootExpr) (st : CompilerState) (external : ExternalEnv)
        (ct : Expr) (st1 : CompilerState),
      compile_expr t { st with fallible_expression_error := none } = (some ct, st1) →
      (ct.type_def).never = true →
      (compile_root_exprs (RootExpr.expr t :: rest) st external).1 = [ct]) ∧
    ((compile_root_exprs [RootExpr.expr AstExpr.abort, RootExpr.expr (AstExpr.var "e2"),
        RootExpr.expr (AstExpr.var "e3")] CompilerState.new ⟨0⟩).2.1.diagnostics
      = [Diagnostic.undefinedVariable "e2", Diagnostic.undefinedVariable "e3"]) := by
  constructor
  · intro t rest st external ct st1 hc hnever
    simp only [compile_root_exprs, compile_root_exprs_loop]
    rw [hc]
    rcases hfee : st1.fallible_expression_error with _ | d
    · simp [hfee, hnever, compile_root_exprs_loop_terminated]
    · simp [hfee, hnever, compile_root_exprs_loop_terminated]
  · rfl

/-- Witness for the amended C1 theorem at a concrete program: an unconditional
abort truncates the two following root expressions. -/
theorem c1_amended_witness :
    compile_expr AstExpr.abort
        { CompilerState.new with fallible_expression_error := none }
        = (some Expr.abort, { CompilerState.new with abortable := true }) ∧
      ((Expr.abort).type_def).never = true ∧
      (compile_root_exprs [RootExpr.expr AstExpr.abort, RootExpr.expr (AstExpr.var "x")]
        CompilerState.new ⟨0⟩).1 = [Expr.abort] :=
  ⟨rfl, rfl,
    (c1_amended_terminal_truncation).1 AstExpr.abort [RootExpr.expr (AstExpr.var "x")]
      CompilerState.new ⟨0⟩ Expr.abort { CompilerState.new with abortable := true } rfl rfl⟩

/-- Counterexample to claim C1 as stated: for the program
`[abort, e2, e3]` with `e2 = x` and `e3 = y` referencing unbound names, the
claim asserts no undefined-variable diagnostics are emitted for them; in fact
both diagnostics are emitted (and compilation therefore fails, so no Program
with the claimed shape exists at all). -/
theorem c1_counterexample_diagnostics_after_terminal :
    compile [RootExpr.expr AstExpr.abort, RootExpr.expr (AstExpr.var "x"),
        RootExpr.expr (AstExpr.var "y")] ⟨0⟩
      = Except.error [Diagnostic.undefinedVariable "x", Diagnostic.undefinedVariable "y"] :=
  rfl

end Vrl

namespace Vrl

/-- Claim C5: fallibility clearing. Compiling a root expression of the form
`e ?? literal` (error-coalescing) or `ok, err = e` (infallible assignment)
emits no fallible-expression error, whatever the inner expression `e`; a bare
root expression that compiles successfully while leaving the pending
fallible-expression error set yields exactly one such diagnostic; and the
pending state is reset per root expression — two bare fallible calls yield
exactly one diagnostic each. -/
theorem c5_fallibility_clearing :
    (∀ (e : AstExpr) (external : ExternalEnv), Diagnostic.fallibleError ∉
      (compile_root_exprs [RootExpr.expr (AstExpr.op e Opcode.err AstExpr.literal)]
        CompilerState.new external).2.1.diagnostics) ∧
    (∀ (okT errT : String) (e : AstExpr) (external : ExternalEnv), Diagnostic.fallibleError ∉
      (compile_root_exprs [RootExpr.expr (AstExpr.assignmentInfallible okT errT e)]
        CompilerState.new external).2.1.diagnostics) ∧
    (∀ (e : AstExpr) (external : ExternalEnv) (ce : Expr) (st1 : CompilerState),
      compile_expr e CompilerState.new = (some ce, st1) →
      st1.fallible_expression_error = some Diagnostic.fallibleError →
      ((compile_root_exprs [RootExpr.expr e] CompilerState.new external).2.1.diagnostics).count
        Diagnostic.fallibleError = 1) ∧
    ((compile_root_exprs [RootExpr.expr (AstExpr.functionCall true false),
        RootExpr.expr (AstExpr.functionCall true false)] CompilerState.new ⟨0⟩).2.1.diagnostics
      = [Diagnostic.fallibleError, Diagnostic.fallibleError]) := by
  have hnew : ({ CompilerState.new with fallible_expression_error := none } : CompilerState)
      = CompilerState.new := rfl
  refine ⟨?_, ?_, ?_, ?_⟩
  · intro e external
    obtain ⟨e1, he1, hn1⟩ := compile_expr_diagnostics e CompilerState.new
    simp only [compile_root_exprs, compile_root_exprs_loop, hnew]
    rcases h1 : compile_expr e CompilerState.new with ⟨res1, stA⟩
    rw [h1] at he1
    replace he1 : stA.diagnostics = e1 := by simpa [CompilerState.new] using he1
    simp only [compile_expr]
    rw [h1]
    match res1 with
    | none =>
      simp only [bindStep, track_fallibility]
      simpa [compile_root_exprs_loop, he1] using hn1
    | some l =>
      simp [bindStep, track_fallibility, Expr.type_def, compile_root_exprs_loop, he1, hn1]
  · intro okT errT e external
    obtain ⟨e1, he1, hn1⟩ := compile_expr_diagnostics e CompilerState.new
    simp only [compile_root_exprs, compile_root_exprs_loop, hnew]
    rcases h1 : compile_expr e CompilerState.new with ⟨res1, stA⟩
    rw [h1] at he1
    replace he1 : stA.diagnostics = e1 := by simpa [CompilerState.new] using he1
    simp only [compile_expr]
    rw [h1]
    match res1 with
    | none =>
      simp only [track_fallibility]
      simpa [compile_root_exprs_loop, he1] using hn1
    | some ce =>
      simp [track_fallibility, Expr.type_def, compile_root_exprs_loop, he1, hn1]
  · intro e external ce st1 hc hfee
    obtain ⟨e1, he1, hn1⟩ := compile_expr_diagnostics e CompilerState.new
    rw [hc] at he1
    replace he1 : st1.diagnostics = e1 := by simpa [CompilerState.new] using he1
    simp only [compile_root_exprs, compile_root_exprs_loop, hnew]
    rw [hc]
    simp only [hfee]
    have hcount : (st1.diagnostics ++ [Diagnostic.fallibleError]).count
        Diagnostic.fallibleError = 1 := by
      rw [List.count_append, he1]
      rw [List.count_eq_zero.mpr hn1]
      simp
    by_cases hn : (ce.type_def).never = true
    · simpa [hn, compile_root_exprs_loop] using hcount
    · rw [Bool.not_eq_true] at hn
      simpa [hn, compile_root_exprs_loop] using hcount
  · rfl

end Vrl

namespace Vrl

/-- Witness for the C10 theorem at a concrete input. -/
theorem c10_witness :
    (Program.mk [Expr.noop] (ProgramInfo.mk false false)).expressions = [Expr.noop] :=
  c10_program_never_empty.2.2.2 ⟨0⟩ (Program.mk [Expr.noop] (ProgramInfo.mk false false)) [] rfl

/-- Witness for the C9 theorem at concrete inputs: one failing program (an
undefined variable) and one succeeding program (empty). -/
theorem c9_witness :
    ([Diagnostic.undefinedVariable "x"] ≠ [] ∧
      [Diagnostic.undefinedVariable "x"] =
        (compiled_diagnostics [RootExpr.expr (AstExpr.var "x")] ⟨0⟩).filter
          (fun d => d.is_critical)) ∧
    (([] : List Diagnostic) = (compiled_diagnostics [] ⟨0⟩).filter (fun d => !(d.is_critical)) ∧
      (compiled_diagnostics [] ⟨0⟩).filter (fun d => d.is_critical) = []) :=
  ⟨(c9_error_warning_classification [RootExpr.expr (AstExpr.var "x")] ⟨0⟩).1
      [Diagnostic.undefinedVariable "x"] rfl,
    (c9_error_warning_classification [] ⟨0⟩).2
      (Program.mk [Expr.noop] (ProgramInfo.mk false false)) [] rfl⟩

/-- Witness for the C5 theorem at a concrete input: a single bare fallible
call yields exactly one fallible-expression diagnostic. -/
theorem c5_witness :
    ((compile_root_exprs [RootExpr.expr (AstExpr.functionCall true false)]
        CompilerState.new ⟨0⟩).2.1.diagnostics).count Diagnostic.fallibleError = 1 :=
  (c5_fallibility_clearing).2.2.1 (AstExpr.functionCall true false) ⟨0⟩
    (Expr.functionCall true false)
    { CompilerState.new with fallible_expression_error := some Diagnostic.fallibleError }
    rfl rfl

end Vrl

namespace VectorConfig

/-- Witness for the C7 theorem at concrete inputs. -/
theorem c7_witness :
    (("foo1" ∈ ["foo1", "foo2"] ∧ "foo1" ≠ "out") ∨ "foo1" ∈ ["foo*"]) ∧
      ("out", SinkOuter.mk (expand_globs_inner ["foo*"] "out"
          (glob_candidates ⟨["foo1", "foo2", "bar"], [], [("out", ⟨["foo*"]⟩)]⟩)))
        ∈ (expand_globs ⟨["foo1", "foo2", "bar"], [], [("out", ⟨["foo*"]⟩)]⟩).sinks :=
  ⟨(c7_glob_expansion).2.1 ["foo*"] "out" ["foo1", "foo2"] "foo1" (by decide),
    (c7_glob_expansion).2.2.2 ⟨["foo1", "foo2", "bar"], [], [("out", ⟨["foo*"]⟩)]⟩
      "out" ⟨["foo*"]⟩ (by decide)⟩

/-- Witness for the C8 theorem at a concrete input: an input string matching
no candidate is preserved verbatim. -/
theorem c8_witness :
    "nonexistent*" ∈ expand_globs_inner ["nonexistent*"] "out" ["foo1"] :=
  (c8_unmatched_glob_preserved).1 ["nonexistent*"] "out" ["foo1"] "nonexistent*"
    (by decide) (by decide)

end VectorConfig

namespace VectorConfig

/-- Claim C2, corrected: the claim as stated is false (see the counterexample
theorem): a macro-expansion failure makes `compile` return only the
macro-expansion errors, discarding any name-validation errors found earlier.
What holds is the source's actual aggregation: (1) when macro expansion
fails, its errors alone are returned; (2) otherwise, when graph construction
fails, the accumulated name/shape/resource errors plus the graph errors are
returned without running typecheck; (3) otherwise name validation, shape
validation, resource validation and graph typecheck are all aggregated, the
compile failing with the combined list iff it is non-empty. -/
theorem c2_amended_error_aggregation
    (check_shape check_resources : ConfigBuilder → List String)
    (graph_new : ConfigBuilder → Except (List String) GraphModel)
    (graph_typecheck : GraphModel → List String)
    (warnings_of : Config → List String)
    (builder : ConfigBuilder) :
    (macro_errors builder ≠ [] →
      compile check_shape check_resources graph_new graph_typecheck warnings_of builder
        = Except.error (macro_errors builder)) ∧
    (macro_errors builder = [] →
      (∀ gerrs, graph_new (globbed builder) = Except.error gerrs →
        compile check_shape check_resources graph_new graph_typecheck warnings_of builder
          = Except.error (pre_graph_errors check_shape check_resources builder ++ gerrs)) ∧
      (∀ graph, graph_new (globbed builder) = Except.ok graph →
        (pre_graph_errors check_shape check_resources builder ++ graph_typecheck graph = [] →
          ∃ cfg w, compile check_shape check_resources graph_new graph_typecheck warnings_of
            builder = Except.ok (cfg, w)) ∧
        (pre_graph_errors check_shape check_resources builder ++ graph_typecheck graph ≠ [] →
          compile check_shape check_resources graph_new graph_typecheck warnings_of builder
            = Except.error
              (pre_graph_errors check_shape check_resources builder ++ graph_typecheck graph)))) := by
  constructor
  · intro hm
    simp only [compile]
    rw [if_pos]
    · rfl
    · simpa [macro_errors, List.isEmpty_eq_false] using hm
  · intro hm
    have hie : (expand_macros builder.transforms).2.2.isEmpty = true := by
      rw [List.isEmpty_iff]
      simpa [macro_errors] using hm
    constructor
    · intro gerrs hg
      simp only [compile, hie]
      rw [if_neg (by simp)]
      rw [show expand_globs { builder with transforms := (expand_macros builder.transforms).1 }
        = globbed builder from rfl]
      rw [hg]
      rfl
    · intro graph hg
      constructor
      · intro hall
        simp only [compile, hie]
        rw [if_neg (by simp)]
        rw [show expand_globs { builder with transforms := (expand_macros builder.transforms).1 }
          = globbed builder from rfl]
        rw [hg]
        dsimp only []
        rw [if_pos]
        · exact ⟨_, _, rfl⟩
        · rw [List.isEmpty_iff]
          exact hall
      · intro hall
        simp only [compile, hie]
        rw [if_neg (by simp)]
        rw [show expand_globs { builder with transforms := (expand_macros builder.transforms).1 }
          = globbed builder from rfl]
        rw [hg]
        dsimp only []
        rw [if_neg]
        · rfl
        · rw [List.isEmpty_iff]
          exact hall

end VectorConfig

namespace VectorConfig

/-- Counterexample to claim C2 as stated: on a builder with both a
name-validation error (source "a.b" contains the reserved delimiter) and a
failing transform expansion, `compile` returns only the macro-expansion error;
the name-validation error — which the claim requires to be aggregated into the
same list — is a different, non-empty list that is discarded. -/
theorem c2_counterexample_macro_failure_discards_name_errors :
    compile (fun _ => []) (fun _ => []) (fun _ => Except.ok ⟨fun _ => []⟩) (fun _ => [])
        (fun _ => [])
        ⟨["a.b"], [("t", ⟨[], ⟨ExpandSpec.expandFails "boom", []⟩⟩)], []⟩
      = Except.error
          (macro_errors ⟨["a.b"], [("t", ⟨[], ⟨ExpandSpec.expandFails "boom", []⟩⟩)], []⟩) ∧
    macro_errors ⟨["a.b"], [("t", ⟨[], ⟨ExpandSpec.expandFails "boom", []⟩⟩)], []⟩
      = ["failed to expand transform t: boom"] ∧
    name_errors ⟨["a.b"], [("t", ⟨[], ⟨ExpandSpec.expandFails "boom", []⟩⟩)], []⟩
      = ["Component name a.b should not contain a dot"] ∧
    ("Component name a.b should not contain a dot" : String)
      ≠ "failed to expand transform t: boom" := by
  refine ⟨?_, ?_, rfl, by decide⟩
  · simp only [compile, macro_errors, expand_macros, List.reverse_cons, List.reverse_nil,
      List.nil_append, expand_macros_loop]
    rw [if_pos]
    rfl
  · simp only [macro_errors, expand_macros, List.reverse_cons, List.reverse_nil,
      List.nil_append, expand_macros_loop]
    rfl

/-- Witness for the amended C2 theorem at concrete inputs: the macro-failure
clause on the counterexample builder, and the all-phases-aggregate clause on a
clean single-source builder. -/
theorem c2_amended_witness :
    compile (fun _ => []) (fun _ => []) (fun _ => Except.ok ⟨fun _ => []⟩) (fun _ => [])
        (fun _ => [])
        ⟨["a.b"], [("t", ⟨[], ⟨ExpandSpec.expandFails "boom", []⟩⟩)], []⟩
      = Except.error
          (macro_errors ⟨["a.b"], [("t", ⟨[], ⟨ExpandSpec.expandFails "boom", []⟩⟩)], []⟩) ∧
    (∃ cfg w,
      compile (fun _ => []) (fun _ => []) (fun _ => Except.ok ⟨fun _ => []⟩) (fun _ => [])
        (fun _ => []) ⟨["src"], [], []⟩ = Except.ok (cfg, w)) :=
  ⟨(c2_amended_error_aggregation (fun _ => []) (fun _ => [])
      (fun _ => Except.ok ⟨fun _ => []⟩) (fun _ => []) (fun _ => [])
      ⟨["a.b"], [("t", ⟨[], ⟨ExpandSpec.expandFails "boom", []⟩⟩)], []⟩).1
      (by simp [macro_errors, expand_macros, List.reverse_cons, List.reverse_nil,
        List.nil_append, expand_macros_loop]),
    ((c2_amended_error_aggregation (fun _ => []) (fun _ => [])
      (fun _ => Except.ok ⟨fun _ => []⟩) (fun _ => []) (fun _ => [])
      ⟨["src"], [], []⟩).2
      (by simp [macro_errors, expand_macros, List.reverse_cons, List.reverse_nil,
        List.nil_append, expand_macros_loop])).2
      ⟨fun _ => []⟩ rfl |>.1
      (by simp [pre_graph_errors, name_errors, check_names])⟩

end VectorConfig

namespace VectorConfig

/-- A key that no entry carries looks up to nothing. -/
theorem alookup_eq_none {α : Type} (m : List (String × α)) (k : String)
    (h : m.any (fun p => p.1 == k) = false) : alookup m k = none := by
  simp only [alookup]
  rw [List.find?_eq_none.mpr]
  · rfl
  · intro x hx hpx
    rw [List.any_eq_false] at h
    exact h x hx hpx

/-- Replacing the values of `k`-keyed entries does not change lookups of other
keys. -/
theorem alookup_map_replace_ne {α : Type} (m : List (String × α)) (k k' : String) (v : α)
    (hne : k' ≠ k) :
    alookup (m.map (fun p => if p.1 == k then (k, v) else p)) k' = alookup m k' := by
  have hkk : ((k : String) == k') = false := by
    rw [beq_eq_false_iff_ne]
    exact fun hc => hne hc.symm
  induction m with
  | nil => rfl
  | cons hd tl ih =>
    simp only [List.map_cons]
    by_cases hk : hd.1 = k
    · rw [if_pos (by simpa using hk)]
      simp only [alookup, List.find?]
      rw [show (hd.1 == k') = false by rw [hk]; exact hkk]
      simp only [hkk]
      exact ih
    · rw [if_neg (by simpa using hk)]
      by_cases hk' : hd.1 = k'
      · simp only [alookup, List.find?]
        rw [show (hd.1 == k') = true by simpa using hk']
      · simp only [alookup, List.find?]
        rw [show (hd.1 == k') = false by simpa using hk']
        exact ih

/-- Replacing the values of `k`-keyed entries makes the lookup of `k` return
the new value, provided some entry carries `k`. -/
theorem alookup_map_replace_self {α : Type} (m : List (String × α)) (k : String) (v : α)
    (h : m.any (fun p => p.1 == k) = true) :
    alookup (m.map (fun p => if p.1 == k then (k, v) else p)) k = some v := by
  induction m with
  | nil => simp at h
  | cons hd tl ih =>
    simp only [List.map_cons]
    by_cases hk : hd.1 = k
    · rw [if_pos (by simpa using hk)]
      simp [alookup]
    · rw [if_neg (by simpa using hk)]
      have h' : tl.any (fun p => p.1 == k) = true := by
        simp only [List.any_cons] at h
        rcases Bool.or_eq_true_iff.mp h with hc | hc
        · exact absurd (by simpa using hc) hk
        · exact hc
      simp only [alookup]
      rw [List.find?_cons_of_neg _ (by simpa using hk)]
      exact ih h'

/-- Lookup after an ordered-map insert: the inserted key finds the inserted
value. -/
theorem alookup_imInsert_self {α : Type} (m : List (String × α)) (k : String) (v : α) :
    alookup (imInsert m k v) k = some v := by
  simp only [imInsert]
  by_cases ha : m.any (fun p => p.1 == k)
  · rw [if_pos ha]
    exact alookup_map_replace_self m k v ha
  · rw [if_neg ha]
    simp only [alookup, List.find?_append]
    rw [List.find?_eq_none.mpr]
    · simp [alookup]
    · intro x hx hpx
      rw [Bool.not_eq_true, List.any_eq_false] at ha
      exact ha x hx hpx

/-- Lookup of a different key is unchanged by an ordered-map insert. -/
theorem alookup_imInsert_ne {α : Type} (m : List (String × α)) (k k' : String) (v : α)
    (hne : k' ≠ k) :
    alookup (imInsert m k v) k' = alookup m k' := by
  simp only [imInsert]
  by_cases ha : m.any (fun p => p.1 == k)
  · rw [if_pos ha]
    exact alookup_map_replace_ne m k k' v hne
  · rw [if_neg ha]
    have hb1 : ((k : String) == k') = false := by
      rw [beq_eq_false_iff_ne]
      exact fun hc => hne hc.symm
    simp only [alookup, List.find?_append]
    have hsing : List.find? (fun p => p.1 == k') ([(k, v)] : List (String × α)) = none := by
      simp only [List.find?]
      rw [show (((k, v) : String × α).1 == k') = false from hb1]
    rw [hsing, Option.or_none]

end VectorConfig

namespace VectorConfig

/-- One expansion creates exactly one entry per child. -/
theorem child_entries_length (k : String) (pin : List String) (ty : ExpandType) :
    ∀ (cs : List String) (cur : List String),
      (child_entries k pin cur cs ty).length = cs.length := by
  intro cs
  induction cs with
  | nil => intro cur; rfl
  | cons c cs ih => intro cur; simp [child_entries, ih]

/-- The keys of the created child entries are the namespaced child names, in
order. -/
theorem child_entries_keys (k : String) (pin : List String) (ty : ExpandType) :
    ∀ (cs : List String) (cur : List String),
      (child_entries k pin cur cs ty).map (fun p => p.1)
        = cs.map (fun name => k ++ "." ++ name) := by
  intro cs
  induction cs with
  | nil => intro cur; rfl
  | cons c cs ih => intro cur; simp [child_entries, ih]

/-- Every created child entry is a plain transform. -/
theorem child_entries_plain (k : String) (pin : List String) (ty : ExpandType) :
    ∀ (cs : List String) (cur : List String) (e : String × TransformOuter),
      e ∈ child_entries k pin cur cs ty → e.2.inner.expandSpec = ExpandSpec.noExpand := by
  intro cs
  induction cs with
  | nil => intro cur e he; simp [child_entries] at he
  | cons c cs ih =>
    intro cur e he
    simp only [child_entries, List.mem_cons] at he
    rcases he with he | he
    · rw [he]
    · exact ih _ e he

/-- The i-th created child entry: its key is the namespaced i-th child name
and its inputs follow the wiring discipline (the running `cur` list for the
head, the claim's expected wiring beyond it). -/
theorem child_entries_getElem (k : String) (pin : List String) (ty : ExpandType) :
    ∀ (cs : List String) (cur : List String) (i : Nat), i < cs.length →
      (child_entries k pin cur cs ty)[i]?
        = some (k ++ "." ++ cs.getD i "",
            TransformOuter.mk
              (if i = 0 then cur else expected_child_inputs k pin cs ty i)
              (TransformInner.mk ExpandSpec.noExpand [])) := by
  intro cs
  induction cs with
  | nil => intro cur i hi; simp at hi
  | cons c cs ih =>
    intro cur i hi
    match i with
    | 0 => simp [child_entries]
    | Nat.succ j =>
      have hj : j < cs.length := by simpa using hi
      simp only [child_entries, List.getElem?_cons_succ]
      rw [ih _ j hj]
      have hkey : cs.getD j "" = (c :: cs).getD (j + 1) "" := rfl
      match j with
      | 0 =>
        cases ty with
        | parallel => simp [expected_child_inputs]
        | serial => simp [expected_child_inputs]
      | Nat.succ j' =>
        cases ty with
        | parallel => simp [expected_child_inputs]
        | serial => simp [expected_child_inputs]

/-- derivedKeys distributes over append. -/
theorem derivedKeys_append (l1 l2 : List (String × TransformOuter)) :
    derivedKeys (l1 ++ l2) = derivedKeys l1 ++ derivedKeys l2 := by
  simp [derivedKeys]

/-- For a list of plain transforms, the derived keys are just the keys. -/
theorem derivedKeys_plain (l : List (String × TransformOuter))
    (h : ∀ e ∈ l, e.2.inner.expandSpec = ExpandSpec.noExpand) :
    derivedKeys l = l.map (fun p => p.1) := by
  induction l with
  | nil => rfl
  | cons hd tl ih =>
    simp only [derivedKeys, List.flatMap_cons]
    rw [h hd (by simp)]
    simp only [derivedKeys] at ih
    rw [ih (fun e he => h e (by simp [he]))]
    rfl

/-- The derived keys of the reversed child-entry block are the namespaced
child names, reversed. -/
theorem derivedKeys_child_entries_reverse (k : String) (pin cur : List String)
    (cs : List String) (ty : ExpandType) :
    derivedKeys ((child_entries k pin cur cs ty).reverse)
      = (cs.map (fun name => k ++ "." ++ name)).reverse := by
  rw [derivedKeys_plain]
  · rw [List.map_reverse, child_entries_keys]
  · intro e he
    exact child_entries_plain k pin ty cs cur e (List.mem_reverse.mp he)

end VectorConfig

namespace VectorConfig

/-- Unfolding of the work loop on a transform whose expansion fails. -/
theorem expand_macros_loop_cons_fails (k : String) (t : TransformOuter)
    (rest : List (String × TransformOuter)) (st : MacroState) (msg : String)
    (hspec : t.inner.expandSpec = ExpandSpec.expandFails msg) :
    expand_macros_loop ((k, t) :: rest) st
      = expand_macros_loop rest
          { st with errors := st.errors ++ [s!"failed to expand transform {k}: {msg}"] } := by
  simp only [expand_macros_loop]
  split
  next msg2 heq =>
    rw [hspec] at heq
    rw [ExpandSpec.expandFails.injEq] at heq
    rw [heq]
  next heq => rw [hspec] at heq; simp at heq
  next c ty heq => rw [hspec] at heq; simp at heq

/-- Unfolding of the work loop on a transform that does not expand. -/
theorem expand_macros_loop_cons_plain (k : String) (t : TransformOuter)
    (rest : List (String × TransformOuter)) (st : MacroState)
    (hspec : t.inner.expandSpec = ExpandSpec.noExpand) :
    expand_macros_loop ((k, t) :: rest) st
      = expand_macros_loop rest
          { st with expanded_transforms := imInsert st.expanded_transforms k t } := by
  simp only [expand_macros_loop]
  split
  next msg2 heq => rw [hspec] at heq; simp at heq
  next heq => rfl
  next c ty heq => rw [hspec] at heq; simp at heq

/-- Unfolding of the work loop on an expanding transform: the children are
pushed (reversed, at the head) and the expansion recorded. -/
theorem expand_macros_loop_cons_expands (k : String) (t : TransformOuter)
    (rest : List (String × TransformOuter)) (st : MacroState)
    (children : List String) (ty : ExpandType)
    (hspec : t.inner.expandSpec = ExpandSpec.expandsTo children ty) :
    expand_macros_loop ((k, t) :: rest) st
      = expand_macros_loop ((child_entries k t.inputs t.inputs children ty).reverse ++ rest)
          { st with expansions :=
              imInsert st.expansions k (children.map (fun name => k ++ "." ++ name)) } := by
  simp only [expand_macros_loop]
  split
  next msg2 heq => rw [hspec] at heq; simp at heq
  next heq => rw [hspec] at heq; simp at heq
  next c ty2 heq =>
    rw [hspec] at heq
    rw [ExpandSpec.expandsTo.injEq] at heq
    rw [heq.1, heq.2]

end VectorConfig

namespace VectorConfig

/-- A key outside the derived-key set of the work stack has its
transform-map binding untouched by the loop. -/
theorem expand_macros_loop_transforms_preserved (k' : String) :
    ∀ (stack : List (String × TransformOuter)) (st : MacroState),
      k' ∉ derivedKeys stack →
      alookup (expand_macros_loop stack st).expanded_transforms k'
        = alookup st.expanded_transforms k' := by
  intro stack st
  induction stack, st using expand_macros_loop.induct with
  | case1 st =>
    intro _
    simp [expand_macros_loop]
  | case2 k t rest st msg hspec ih =>
    intro h
    rw [derivedKeys, List.flatMap_cons, hspec] at h
    simp only [List.mem_append, List.mem_singleton, not_or] at h
    rw [expand_macros_loop_cons_fails k t rest st msg hspec]
    exact ih h.2
  | case3 k t rest st hspec ih =>
    intro h
    rw [derivedKeys, List.flatMap_cons, hspec] at h
    simp only [List.mem_append, List.mem_singleton, not_or] at h
    rw [expand_macros_loop_cons_plain k t rest st hspec]
    rw [ih h.2]
    exact alookup_imInsert_ne _ k k' t h.1
  | case4 k t rest st children expand_type hspec entries ih =>
    intro h
    rw [derivedKeys, List.flatMap_cons, hspec] at h
    simp only [List.mem_append, List.mem_cons, List.mem_map, not_or] at h
    rw [expand_macros_loop_cons_expands k t rest st children expand_type hspec]
    apply ih
    rw [derivedKeys_append, derivedKeys_child_entries_reverse]
    simp only [List.mem_append, List.mem_reverse, List.mem_map, not_or]
    constructor
    · rintro ⟨name, hname, hkey⟩
      exact h.1.2 ⟨name, hname, hkey⟩
    · exact h.2

/-- A key outside the derived-key set of the work stack has its
expansion-map binding untouched by the loop. -/
theorem expand_macros_loop_expansions_preserved (k' : String) :
    ∀ (stack : List (String × TransformOuter)) (st : MacroState),
      k' ∉ derivedKeys stack →
      alookup (expand_macros_loop stack st).expansions k'
        = alookup st.expansions k' := by
  intro stack st
  induction stack, st using expand_macros_loop.induct with
  | case1 st =>
    intro _
    simp [expand_macros_loop]
  | case2 k t rest st msg hspec ih =>
    intro h
    rw [derivedKeys, List.flatMap_cons, hspec] at h
    simp only [List.mem_append, List.mem_singleton, not_or] at h
    rw [expand_macros_loop_cons_fails k t rest st msg hspec]
    exact ih h.2
  | case3 k t rest st hspec ih =>
    intro h
    rw [derivedKeys, List.flatMap_cons, hspec] at h
    simp only [List.mem_append, List.mem_singleton, not_or] at h
    rw [expand_macros_loop_cons_plain k t rest st hspec]
    exact ih h.2
  | case4 k t rest st children expand_type hspec entries ih =>
    intro h
    rw [derivedKeys, List.flatMap_cons, hspec] at h
    simp only [List.mem_append, List.mem_cons, List.mem_map, not_or] at h
    rw [expand_macros_loop_cons_expands k t rest st children expand_type hspec]
    have hrest : k' ∉ derivedKeys
        ((child_entries k t.inputs t.inputs children expand_type).reverse ++ rest) := by
      rw [derivedKeys_append, derivedKeys_child_entries_reverse]
      simp only [List.mem_append, List.mem_reverse, List.mem_map, not_or]
      constructor
      · rintro ⟨name, hname, hkey⟩
        exact h.1.2 ⟨name, hname, hkey⟩
      · exact h.2
    rw [ih hrest]
    exact alookup_imInsert_ne _ k k' _ h.1.1

end VectorConfig

namespace VectorConfig

/-- Dropping a middle element preserves Nodup. -/
theorem nodup_append_cons_drop {A d : List String} {a : String}
    (h : (A ++ a :: d).Nodup) : (A ++ d).Nodup :=
  ((List.perm_middle.nodup_iff).mp h).of_cons

/-- The middle element of a Nodup split occurs nowhere else. -/
theorem nodup_append_cons_not_mem {A d : List String} {a : String}
    (h : (A ++ a :: d).Nodup) : a ∉ A ++ d :=
  (List.nodup_cons.mp ((List.perm_middle.nodup_iff).mp h)).1

/-- Reversing an inner block preserves Nodup. -/
theorem nodup_append_reverse_mid {A C d : List String}
    (h : (A ++ (C ++ d)).Nodup) : (A ++ (C.reverse ++ d)).Nodup :=
  ((List.Perm.append_left A ((List.reverse_perm C).append_right d)).nodup_iff).mpr h

/-- Inserting a fresh key into an ordered map appends the binding. -/
theorem imInsert_fresh {α : Type} (m : List (String × α)) (k : String) (v : α)
    (h : ∀ p ∈ m, p.1 ≠ k) : imInsert m k v = m ++ [(k, v)] := by
  simp only [imInsert]
  rw [if_neg]
  simp only [List.any_eq_true, not_exists, not_and]
  intro p hp
  simpa using h p hp

/-- A plain transform anywhere on the work stack ends up, unchanged, in the
final transform map, provided the transform-map keys and the stack's derived
keys are globally distinct. -/
theorem expand_macros_loop_plain_delivered :
    ∀ (stack : List (String × TransformOuter)) (st : MacroState),
      ∀ k t, (k, t) ∈ stack →
      t.inner.expandSpec = ExpandSpec.noExpand →
      ((st.expanded_transforms.map (fun p => p.1)) ++ derivedKeys stack).Nodup →
      alookup (expand_macros_loop stack st).expanded_transforms k = some t := by
  intro stack st
  induction stack, st using expand_macros_loop.induct with
  | case1 st =>
    intro k t hmem
    simp at hmem
  | case2 k0 t0 rest st msg hspec ih =>
    intro k t hmem hplain hnd
    rw [List.mem_cons] at hmem
    rcases hmem with hmem | hmem
    · rw [Prod.mk.injEq] at hmem
      rw [hmem.2] at hplain
      rw [hplain] at hspec
      simp at hspec
    · rw [expand_macros_loop_cons_fails k0 t0 rest st msg hspec]
      apply ih k t hmem hplain
      rw [derivedKeys, List.flatMap_cons, hspec] at hnd
      exact nodup_append_cons_drop hnd
  | case3 k0 t0 rest st hspec ih =>
    intro k t hmem hplain hnd
    rw [derivedKeys, List.flatMap_cons, hspec] at hnd
    have hk0 : k0 ∉ (st.expanded_transforms.map (fun p => p.1)) ++ derivedKeys rest :=
      nodup_append_cons_not_mem hnd
    simp only [List.mem_append, List.mem_map, not_or, not_exists] at hk0
    rw [expand_macros_loop_cons_plain k0 t0 rest st hspec]
    rw [List.mem_cons] at hmem
    rcases hmem with hmem | hmem
    · rw [Prod.mk.injEq] at hmem
      rw [hmem.1, hmem.2]
      rw [expand_macros_loop_transforms_preserved k0 rest _ (fun hc => hk0.2 hc)]
      exact alookup_imInsert_self st.expanded_transforms k0 t0
    · apply ih k t hmem hplain
      rw [imInsert_fresh st.expanded_transforms k0 t0
        (fun p hp hc => hk0.1 p ⟨hp, hc⟩)]
      rw [List.map_append]
      rw [List.append_assoc]
      simpa using hnd
  | case4 k0 t0 rest st children expand_type hspec entries ih =>
    intro k t hmem hplain hnd
    rw [derivedKeys, List.flatMap_cons, hspec] at hnd
    rw [expand_macros_loop_cons_expands k0 t0 rest st children expand_type hspec]
    rw [List.mem_cons] at hmem
    rcases hmem with hmem | hmem
    · rw [Prod.mk.injEq] at hmem
      rw [hmem.2] at hplain
      rw [hplain] at hspec
      simp at hspec
    · apply ih k t (List.mem_append.mpr (Or.inr hmem)) hplain
      rw [derivedKeys_append, derivedKeys_child_entries_reverse]
      apply nodup_append_reverse_mid
      exact nodup_append_cons_drop hnd

end VectorConfig

namespace VectorConfig

/-- Reversing the head block preserves Nodup. -/
theorem nodup_reverse_append {C d : List String} (h : (C ++ d).Nodup) :
    (C.reverse ++ d).Nodup :=
  (((List.reverse_perm C).append_right d).nodup_iff).mpr h

/-- An expanding transform anywhere on the work stack gets its ordered child
keys recorded in the expansion map, provided the stack's derived keys are
distinct. -/
theorem expand_macros_loop_expansion_recorded :
    ∀ (stack : List (String × TransformOuter)) (st : MacroState),
      ∀ k t cs ty, (k, t) ∈ stack →
      t.inner.expandSpec = ExpandSpec.expandsTo cs ty →
      (derivedKeys stack).Nodup →
      alookup (expand_macros_loop stack st).expansions k
        = some (cs.map (fun name => k ++ "." ++ name)) := by
  intro stack st
  induction stack, st using expand_macros_loop.induct with
  | case1 st =>
    intro k t cs ty hmem
    simp at hmem
  | case2 k0 t0 rest st msg hspec ih =>
    intro k t cs ty hmem hexp hnd
    rw [List.mem_cons] at hmem
    rcases hmem with hmem | hmem
    · rw [Prod.mk.injEq] at hmem
      rw [hmem.2] at hexp
      rw [hexp] at hspec
      simp at hspec
    · rw [expand_macros_loop_cons_fails k0 t0 rest st msg hspec]
      apply ih k t cs ty hmem hexp
      rw [derivedKeys, List.flatMap_cons, hspec] at hnd
      simpa using hnd.of_cons
  | case3 k0 t0 rest st hspec ih =>
    intro k t cs ty hmem hexp hnd
    rw [List.mem_cons] at hmem
    rcases hmem with hmem | hmem
    · rw [Prod.mk.injEq] at hmem
      rw [hmem.2] at hexp
      rw [hexp] at hspec
      simp at hspec
    · rw [expand_macros_loop_cons_plain k0 t0 rest st hspec]
      apply ih k t cs ty hmem hexp
      rw [derivedKeys, List.flatMap_cons, hspec] at hnd
      simpa using hnd.of_cons
  | case4 k0 t0 rest st children expand_type hspec entries ih =>
    intro k t cs ty hmem hexp hnd
    rw [derivedKeys, List.flatMap_cons, hspec] at hnd
    have hnd' : (k0 :: (children.map (fun name => k0 ++ "." ++ name) ++ derivedKeys rest)).Nodup :=
      hnd
    rw [expand_macros_loop_cons_expands k0 t0 rest st children expand_type hspec]
    rw [List.mem_cons] at hmem
    rcases hmem with hmem | hmem
    · rw [Prod.mk.injEq] at hmem
      obtain ⟨hk, ht⟩ := hmem
      subst hk
      subst ht
      rw [hspec, ExpandSpec.expandsTo.injEq] at hexp
      obtain ⟨hcs, hty⟩ := hexp
      subst hcs
      subst hty
      have hnotin : k ∉ derivedKeys
          ((child_entries k t.inputs t.inputs children expand_type).reverse ++ rest) := by
        rw [derivedKeys_append, derivedKeys_child_entries_reverse]
        have hhead := (List.nodup_cons.mp hnd').1
        simp only [List.mem_append, List.mem_reverse, not_or] at hhead ⊢
        exact hhead
      rw [expand_macros_loop_expansions_preserved k _ _ hnotin]
      exact alookup_imInsert_self st.expansions k
        (children.map (fun name => k ++ "." ++ name))
    · apply ih k t cs ty (List.mem_append.mpr (Or.inr hmem)) hexp
      rw [derivedKeys_append, derivedKeys_child_entries_reverse]
      exact nodup_reverse_append (List.nodup_cons.mp hnd').2

/-- Every child entry created by an expanding transform on the work stack ends
up, with its wired inputs, in the final transform map, provided the
transform-map keys and the stack's derived keys are globally distinct. -/
theorem expand_macros_loop_children_delivered :
    ∀ (stack : List (String × TransformOuter)) (st : MacroState),
      ∀ k t cs ty, (k, t) ∈ stack →
      t.inner.expandSpec = ExpandSpec.expandsTo cs ty →
      ((st.expanded_transforms.map (fun p => p.1)) ++ derivedKeys stack).Nodup →
      ∀ e ∈ child_entries k t.inputs t.inputs cs ty,
        alookup (expand_macros_loop stack st).expanded_transforms e.1 = some e.2 := by
  intro stack st
  induction stack, st using expand_macros_loop.induct with
  | case1 st =>
    intro k t cs ty hmem
    simp at hmem
  | case2 k0 t0 rest st msg hspec ih =>
    intro k t cs ty hmem hexp hnd e he
    rw [List.mem_cons] at hmem
    rcases hmem with hmem | hmem
    · rw [Prod.mk.injEq] at hmem
      rw [hmem.2] at hexp
      rw [hexp] at hspec
      simp at hspec
    · rw [expand_macros_loop_cons_fails k0 t0 rest st msg hspec]
      apply ih k t cs ty hmem hexp ?_ e he
      rw [derivedKeys, List.flatMap_cons, hspec] at hnd
      exact nodup_append_cons_drop hnd
  | case3 k0 t0 rest st hspec ih =>
    intro k t cs ty hmem hexp hnd e he
    rw [derivedKeys, List.flatMap_cons, hspec] at hnd
    have hk0 : k0 ∉ (st.expanded_transforms.map (fun p => p.1)) ++ derivedKeys rest :=
      nodup_append_cons_not_mem hnd
    simp only [List.mem_append, List.mem_map, not_or, not_exists] at hk0
    rw [List.mem_cons] at hmem
    rcases hmem with hmem | hmem
    · rw [Prod.mk.injEq] at hmem
      rw [hmem.2] at hexp
      rw [hexp] at hspec
      simp at hspec
    · rw [expand_macros_loop_cons_plain k0 t0 rest st hspec]
      apply ih k t cs ty hmem hexp ?_ e he
      rw [imInsert_fresh st.expanded_transforms k0 t0
        (fun p hp hc => hk0.1 p ⟨hp, hc⟩)]
      rw [List.map_append]
      rw [List.append_assoc]
      simpa using hnd
  | case4 k0 t0 rest st children expand_type hspec entries ih =>
    intro k t cs ty hmem hexp hnd e he
    rw [derivedKeys, List.flatMap_cons, hspec] at hnd
    rw [expand_macros_loop_cons_expands k0 t0 rest st children expand_type hspec]
    rw [List.mem_cons] at hmem
    rcases hmem with hmem | hmem
    · rw [Prod.mk.injEq] at hmem
      obtain ⟨hk, ht⟩ := hmem
      subst hk
      subst ht
      rw [hspec, ExpandSpec.expandsTo.injEq] at hexp
      obtain ⟨hcs, hty⟩ := hexp
      subst hcs
      subst hty
      have heplain := child_entries_plain k t.inputs expand_type children t.inputs e he
      have hemem : (e.1, e.2) ∈
          (child_entries k t.inputs t.inputs children expand_type).reverse ++ rest := by
        rw [List.mem_append, List.mem_reverse]
        exact Or.inl (by simpa using he)
      apply expand_macros_loop_plain_delivered _ _ e.1 e.2 hemem heplain
      rw [derivedKeys_append, derivedKeys_child_entries_reverse]
      apply nodup_append_reverse_mid
      exact nodup_append_cons_drop hnd
    · apply ih k t cs ty (List.mem_append.mpr (Or.inr hmem)) hexp ?_ e he
      rw [derivedKeys_append, derivedKeys_child_entries_reverse]
      apply nodup_append_reverse_mid
      exact nodup_append_cons_drop hnd

end VectorConfig

namespace VectorConfig

/-- Reversing the transform list permutes its derived keys. -/
theorem derivedKeys_reverse_perm (ts : List (String × TransformOuter)) :
    (derivedKeys ts.reverse).Perm (derivedKeys ts) := by
  induction ts with
  | nil => exact List.Perm.refl _
  | cons a l ih =>
    rw [List.reverse_cons, derivedKeys_append]
    have h1 : (derivedKeys l.reverse ++ derivedKeys [a]).Perm
        (derivedKeys [a] ++ derivedKeys l.reverse) := List.perm_append_comm
    have h2 : (derivedKeys [a] ++ derivedKeys l.reverse).Perm
        (derivedKeys [a] ++ derivedKeys l) := ih.append_left _
    have h3 : derivedKeys [a] ++ derivedKeys l = derivedKeys (a :: l) := by
      simp [derivedKeys]
    rw [h3] at h2
    exact h1.trans h2

/-- The head child entry's inputs coincide with the claim's expected wiring. -/
theorem expected_child_inputs_zero (k : String) (pin : List String)
    (cs : List String) (ty : ExpandType) (i : Nat) :
    (if i = 0 then pin else expected_child_inputs k pin cs ty i)
      = expected_child_inputs k pin cs ty i := by
  match i with
  | 0 => cases ty <;> simp [expected_child_inputs]
  | Nat.succ j => simp

/-- Claim C6: for every transform in the builder whose expansion yields
children c1..cn (with globally distinct component and child keys, the config
invariant): each child is inserted as a new component keyed parent.ci; under
Parallel every child's inputs equal the parent's original inputs and under
Serial the first child's inputs equal the parent's original inputs while each
later child's inputs are exactly the previous child's key (both captured by
expected_child_inputs); and the expansion map binds the parent key to the
children keys in expansion order. -/
theorem c6_macro_expansion_children
    (ts : List (String × TransformOuter)) (k : String) (t : TransformOuter)
    (cs : List String) (ty : ExpandType) :
    (k, t) ∈ ts →
    t.inner.expandSpec = ExpandSpec.expandsTo cs ty →
    (derivedKeys ts).Nodup →
    alookup (expand_macros ts).2.1 k = some (cs.map (fun name => k ++ "." ++ name)) ∧
    (∀ i, i < cs.length →
      alookup (expand_macros ts).1 (k ++ "." ++ cs.getD i "")
        = some (TransformOuter.mk (expected_child_inputs k t.inputs cs ty i)
            (TransformInner.mk ExpandSpec.noExpand []))) := by
  intro hmem hexp hnd
  have hmem' := List.mem_reverse.mpr hmem
  have hnd' : (derivedKeys ts.reverse).Nodup :=
    ((derivedKeys_reverse_perm ts).nodup_iff).mpr hnd
  constructor
  · simpa [expand_macros] using
      expand_macros_loop_expansion_recorded ts.reverse ⟨[], [], []⟩ k t cs ty hmem' hexp hnd'
  · intro i hi
    have he := child_entries_getElem k t.inputs ty cs t.inputs i hi
    have hmem2 := List.getElem?_mem he
    have hres := expand_macros_loop_children_delivered ts.reverse ⟨[], [], []⟩ k t cs ty
      hmem' hexp (by simpa using hnd') _ hmem2
    rw [expected_child_inputs_zero] at hres
    simpa [expand_macros] using hres

/-- Witness for the C6 theorem at a concrete input: a parent with two serial
children. -/
theorem c6_witness :
    alookup (expand_macros
        [("p", ⟨["src"], ⟨ExpandSpec.expandsTo ["c1", "c2"] ExpandType.serial, []⟩⟩)]).2.1 "p"
      = some ["p.c1", "p.c2"] ∧
    alookup (expand_macros
        [("p", ⟨["src"], ⟨ExpandSpec.expandsTo ["c1", "c2"] ExpandType.serial, []⟩⟩)]).1 "p.c1"
      = some (TransformOuter.mk ["src"] (TransformInner.mk ExpandSpec.noExpand [])) ∧
    alookup (expand_macros
        [("p", ⟨["src"], ⟨ExpandSpec.expandsTo ["c1", "c2"] ExpandType.serial, []⟩⟩)]).1 "p.c2"
      = some (TransformOuter.mk ["p.c1"] (TransformInner.mk ExpandSpec.noExpand [])) :=
  ⟨(c6_macro_expansion_children
      [("p", ⟨["src"], ⟨ExpandSpec.expandsTo ["c1", "c2"] ExpandType.serial, []⟩⟩)]
      "p" ⟨["src"], ⟨ExpandSpec.expandsTo ["c1", "c2"] ExpandType.serial, []⟩⟩
      ["c1", "c2"] ExpandType.serial (by simp) rfl (by decide)).1,
    (c6_macro_expansion_children
      [("p", ⟨["src"], ⟨ExpandSpec.expandsTo ["c1", "c2"] ExpandType.serial, []⟩⟩)]
      "p" ⟨["src"], ⟨ExpandSpec.expandsTo ["c1", "c2"] ExpandType.serial, []⟩⟩
      ["c1", "c2"] ExpandType.serial (by simp) rfl (by decide)).2 0 (by decide),
    (c6_macro_expansion_children
      [("p", ⟨["src"], ⟨ExpandSpec.expandsTo ["c1", "c2"] ExpandType.serial, []⟩⟩)]
      "p" ⟨["src"], ⟨ExpandSpec.expandsTo ["c1", "c2"] ExpandType.serial, []⟩⟩
      ["c1", "c2"] ExpandType.serial (by simp) rfl (by decide)).2 1 (by decide)⟩

end VectorConfig
